import Mathlib

/-!
Verification of the `frame-ticker` library (`src/FrameTicker.ts`).

The embedding models the single class `FrameTicker` as a record of its
fields, together with a small host model for the browser scheduler
(`requestAnimationFrame` / cancellation) and the wall clock, which the
specification treats as external collaborators.  Times are rationals
(milliseconds); the `NaN` sentinel used by the source for "unbounded"
FPS limits becomes `Option ℚ` (`none` = `NaN`).

Listener callbacks registered on the four `SimpleSignal` channels are
modelled as a small action language (`HandlerAct`): a listener either
does nothing or calls back into the public API (`pause()`), which is
what real subscribers can do to the ticker.  Dispatch recursion caused
by such re-entrant calls is bounded by an explicit fuel parameter; all
functions return `none` when fuel runs out, so every theorem about a
completed run takes the shape `... = some result → ...`.

Every definition follows the TypeScript source line by line; the host
scheduler and the `SimpleSignal` dispatch order (in-order over the
subscribers present when dispatch starts) are modelled from the spec,
which excludes them from the repository.
-/

/-- The four notification channels owned by a ticker. -/
inductive Chan where
  | resume
  | pauseCh
  | tick
  | tickOnce
deriving DecidableEq

/-- What a subscribed listener does when invoked: nothing, or a
re-entrant call to the public `pause()` method. -/
inductive HandlerAct where
  | noop
  | pauseAct
deriving DecidableEq

/-- Observable events of a run: a notification delivered to subscriber
`id` of channel `c`, or one call of the private `update` method
(`timePassed`, whether the once-per-frame channel also fires, the value
of `isRunning` at the moment of dispatch, and the tick number). -/
inductive Ev where
  | notify (c : Chan) (id : ℕ)
  | tickDispatch (timePassed : ℚ) (visual : Bool) (running : Bool) (tickNo : ℤ)
deriving DecidableEq

/-- Host scheduler model (spec section 6): it hands out fresh positive
handles for visual-frame registrations and keeps the set of pending
ones.  Modelled from the spec: `requestVisualFrame` / `cancelVisualFrame`
are consumed from the environment, not implemented by the repository. -/
structure Host where
  nextHandle : ℕ
  pending : List ℕ
deriving DecidableEq

/-- Modelled from the spec: registers a one-shot callback, returns a
fresh cancellation handle (`window.requestAnimationFrame`). -/
def Host.requestAnimationFrame (host : Host) : ℕ × Host :=
  (host.nextHandle,
   { nextHandle := host.nextHandle + 1, pending := host.pending ++ [host.nextHandle] })

/-- Modelled from the spec: cancels a pending registration, idempotent
on stale handles (`window.cancelAnimationFrame`; the source also calls
`window.clearAnimationFrame` in `animateOnce`, modelled identically as
the spec's `cancelVisualFrame`). -/
def Host.cancelAnimationFrame (host : Host) (h : ℕ) : Host :=
  { host with pending := host.pending.erase h }

/-- The fields of the `FrameTicker` class.  `_minInterval`/`_maxInterval`
are `NaN` ⇔ `none`; the temporaries `_now`, `_frameDeltaTime`,
`_interval` are passed as arguments instead of stored (nothing can
observe them between assignments). -/
structure FrameTicker where
  isRunning : Bool
  timeScale : ℚ
  currentTick : ℤ
  currentTime : ℚ
  tickDeltaTime : ℚ
  minFPS : Option ℚ
  maxFPS : Option ℚ
  lastTimeUpdated : ℚ
  minInterval : Option ℚ
  maxInterval : Option ℚ
  onResume : List (ℕ × HandlerAct)
  onPause : List (ℕ × HandlerAct)
  onTick : List (ℕ × HandlerAct)
  onTickOncePerFrame : List (ℕ × HandlerAct)
  animationFrameHandle : Option ℕ
deriving DecidableEq

namespace FrameTicker

/-- Getter `currentTimeSeconds`: `this._currentTime / 1000`. -/
def currentTimeSeconds (st : FrameTicker) : ℚ := st.currentTime / 1000

/-- Getter `tickDeltaTimeSeconds`: `this._tickDeltaTime / 1000`. -/
def tickDeltaTimeSeconds (st : FrameTicker) : ℚ := st.tickDeltaTime / 1000

/-- Setter `timeScale`: assigns when the value differs (`!==`). -/
def setTimeScale (st : FrameTicker) (value : ℚ) : FrameTicker :=
  if st.timeScale = value then st else { st with timeScale := value }

/-- `updateOnce(callback)`: invokes the callback once with the snapshot
`(currentTimeSeconds, tickDeltaTimeSeconds, currentTick)`.  The result
records the list of calls made to the callback, the (unchanged) state,
and the (empty) list of channel events. -/
def updateOnce (st : FrameTicker) : List (ℚ × ℚ × ℤ) × FrameTicker × List Ev :=
  ([(st.currentTimeSeconds, st.tickDeltaTimeSeconds, st.currentTick)], st, [])

/-- Tail of `pause()`: cancel an outstanding animation-frame handle, if
any, and null the field. -/
def clearHandleStep (st : FrameTicker) (host : Host) : FrameTicker × Host :=
  match st.animationFrameHandle with
  | some h => ({ st with animationFrameHandle := none }, host.cancelAnimationFrame h)
  | none => (st, host)

/-- `SimpleSignal.dispatch` over a subscriber list: each subscriber in
order receives a notification event and then runs its action.  A
`pauseAct` action performs the body of `FrameTicker.pause()`:
if running, clear the flag and dispatch the pause channel, then cancel
any outstanding frame handle.  The first argument is fuel bounding the
total number of processed subscribers (re-entrant dispatches included);
`none` means the fuel ran out.  The dispatch order over the subscribers
present when the dispatch starts is modelled from the spec. -/
def dispatchGo : ℕ → Chan → List (ℕ × HandlerAct) → FrameTicker → Host →
    Option (FrameTicker × Host × List Ev)
  | 0, _, _, _, _ => none
  | _ + 1, _, [], st, host => some (st, host, [])
  | f + 1, c, (id, a) :: rest, st, host =>
    let afterAct : Option (FrameTicker × Host × List Ev) :=
      match a with
      | .noop => some (st, host, [])
      | .pauseAct =>
        match (if st.isRunning then
                 dispatchGo f .pauseCh st.onPause { st with isRunning := false } host
               else some (st, host, [])) with
        | none => none
        | some (st2, h2, evs2) =>
          let p := clearHandleStep st2 h2
          some (p.1, p.2, evs2)
    match afterAct with
    | none => none
    | some (st1, h1, evs1) =>
      match dispatchGo f c rest st1 h1 with
      | none => none
      | some (stR, hR, evsR) => some (stR, hR, Ev.notify c id :: (evs1 ++ evsR))

/-- `pause()`: if running, clear the flag and dispatch the pause
channel; in all cases cancel any outstanding frame handle. -/
def pause (f : ℕ) (st : FrameTicker) (host : Host) :
    Option (FrameTicker × Host × List Ev) :=
  match (if st.isRunning then
           dispatchGo f .pauseCh st.onPause { st with isRunning := false } host
         else some (st, host, [])) with
  | none => none
  | some (st2, h2, evs2) =>
    let p := clearHandleStep st2 h2
    some (p.1, p.2, evs2)

/-- `animateOnce()`: clear a pre-existing registration, then register
`onFrame` for the next visual frame and remember the handle. -/
def animateOnce (st : FrameTicker) (host : Host) : FrameTicker × Host :=
  let host1 := match st.animationFrameHandle with
    | some h => host.cancelAnimationFrame h
    | none => host
  let p := host1.requestAnimationFrame
  ({ st with animationFrameHandle := some p.1 }, p.2)

/-- `resume()`: no-op when running; otherwise set the flag, record the
clock as `lastTimeUpdated`, dispatch the resume channel and register
for the next visual frame. -/
def resume (f : ℕ) (st : FrameTicker) (host : Host) (now : ℚ) :
    Option (FrameTicker × Host × List Ev) :=
  if st.isRunning then some (st, host, [])
  else
    match dispatchGo f .resume st.onResume
        { st with isRunning := true, lastTimeUpdated := now } host with
    | none => none
    | some (st2, h2, evs) =>
      let p := animateOnce st2 h2
      some (p.1, p.2, evs)

/-- `dispose()`: `pause()` then `removeAll()` on the resume, pause and
tick channels (the once-per-frame channel is left untouched). -/
def dispose (f : ℕ) (st : FrameTicker) (host : Host) :
    Option (FrameTicker × Host × List Ev) :=
  match pause f st host with
  | none => none
  | some (st1, h1, evs) =>
    some ({ st1 with onResume := [], onPause := [], onTick := [] }, h1, evs)

/-- `update(timePassedMS, newVisualFrame)`: increment the tick counter,
accumulate the time, remember the delta, dispatch the tick channel, and
when `newVisualFrame` also dispatch the once-per-frame channel. -/
def update (f : ℕ) (st : FrameTicker) (host : Host)
    (timePassedMS : ℚ) (newVisualFrame : Bool) :
    Option (FrameTicker × Host × List Ev) :=
  let st1 := { st with
    currentTick := st.currentTick + 1,
    currentTime := st.currentTime + timePassedMS,
    tickDeltaTime := timePassedMS }
  let ev0 := Ev.tickDispatch timePassedMS newVisualFrame st.isRunning st1.currentTick
  match dispatchGo f .tick st1.onTick st1 host with
  | none => none
  | some (st2, h2, evs1) =>
    if newVisualFrame then
      match dispatchGo f .tickOnce st2.onTickOncePerFrame st2 h2 with
      | none => none
      | some (st3, h3, evs2) => some (st3, h3, ev0 :: (evs1 ++ evs2))
    else some (st2, h2, ev0 :: evs1)

/-- The catch-up `while` loop of `onFrame` (the `maxInterval` bounded
branch): while `now >= lastTimeUpdated + interval`, dispatch one tick
whose once-per-frame flag is `now <= lastTimeUpdated + maxInterval * 2`,
then advance `lastTimeUpdated` by `interval`.  The second fuel bounds
the number of loop iterations. -/
def onFrameLoop (f : ℕ) : ℕ → FrameTicker → Host → ℚ → ℚ → ℚ →
    Option (FrameTicker × Host × List Ev)
  | 0, _, _, _, _, _ => none
  | lf + 1, st, host, now, interval, maxI =>
    if st.lastTimeUpdated + interval ≤ now then
      match update f st host (interval * st.timeScale)
          (decide (now ≤ st.lastTimeUpdated + maxI * 2)) with
      | none => none
      | some (st1, h1, evs1) =>
        match onFrameLoop f lf
            { st1 with lastTimeUpdated := st1.lastTimeUpdated + interval }
            h1 now interval maxI with
        | none => none
        | some (st2, h2, evs2) => some (st2, h2, evs1 ++ evs2)
    else some (st, host, [])

/-- The guard `isNaN(minInterval) || frameDeltaTime >= minInterval`. -/
def gatePasses (st : FrameTicker) (frameDeltaTime : ℚ) : Bool :=
  match st.minInterval with
  | none => true
  | some minI => decide (minI ≤ frameDeltaTime)

/-- `onFrame()`: compute `frameDeltaTime = now - lastTimeUpdated`, apply
the min-interval gate, then either run the catch-up loop (bounded
`maxInterval`) or a single simple update setting `lastTimeUpdated = now`
(unbounded `maxInterval`); finally, when still running, re-register via
`animateOnce`. -/
def onFrame (f lf : ℕ) (st : FrameTicker) (host : Host) (now : ℚ) :
    Option (FrameTicker × Host × List Ev) :=
  let frameDeltaTime := now - st.lastTimeUpdated
  let core : Option (FrameTicker × Host × List Ev) :=
    if gatePasses st frameDeltaTime then
      match st.maxInterval with
      | some maxI => onFrameLoop f lf st host now (min frameDeltaTime maxI) maxI
      | none =>
        match update f st host (frameDeltaTime * st.timeScale) true with
        | none => none
        | some (st1, h1, evs) => some ({ st1 with lastTimeUpdated := now }, h1, evs)
    else some (st, host, [])
  match core with
  | none => none
  | some (st1, h1, evs) =>
    if st1.isRunning then
      let p := animateOnce st1 h1
      some (p.1, p.2, evs)
    else some (st1, h1, evs)

/-- The constructor `FrameTicker(maxFPS, minFPS, paused)`: intervals are
derived from the FPS bounds (`NaN` ⇔ `none`), counters start at zero,
and unless `paused` the instance immediately resumes (reading the clock
`now`).  `lastTimeUpdated` is uninitialised in the source until
`resume()` assigns it; it is modelled as `0`. -/
def new (f : ℕ) (maxFPS minFPS : Option ℚ) (paused : Bool)
    (host : Host) (now : ℚ) : Option (FrameTicker × Host × List Ev) :=
  let st : FrameTicker := {
    isRunning := false
    timeScale := 1
    currentTick := 0
    currentTime := 0
    tickDeltaTime := 0
    minFPS := minFPS
    maxFPS := maxFPS
    lastTimeUpdated := 0
    maxInterval := minFPS.map (fun v => 1000 / v)
    minInterval := maxFPS.map (fun v => 1000 / v)
    onResume := []
    onPause := []
    onTick := []
    onTickOncePerFrame := []
    animationFrameHandle := none }
  if paused then some (st, host, []) else resume f st host now

/-- The operations a caller (or the host scheduler) can perform on a
live instance between construction and the end of its life. -/
inductive Op where
  | frame (now : ℚ)
  | opResume (now : ℚ)
  | opPause
  | opDispose
  | opSetTimeScale (v : ℚ)
  | opUpdateOnce
deriving DecidableEq

/-- One operation applied to a state.  `frame` is the host invoking the
registered (or a stale) animation-frame callback at clock time `now`. -/
def step (f lf : ℕ) (st : FrameTicker) (host : Host) :
    Op → Option (FrameTicker × Host × List Ev)
  | .frame now => onFrame f lf st host now
  | .opResume now => resume f st host now
  | .opPause => pause f st host
  | .opDispose => dispose f st host
  | .opSetTimeScale v => some (st.setTimeScale v, host, [])
  | .opUpdateOnce => some ((updateOnce st).2.1, host, (updateOnce st).2.2)

/-- A sequence of operations, accumulating all events. -/
def runOps (f lf : ℕ) (st : FrameTicker) (host : Host) :
    List Op → Option (FrameTicker × Host × List Ev)
  | [] => some (st, host, [])
  | op :: rest =>
    match step f lf st host op with
    | none => none
    | some (st1, h1, evs1) =>
      match runOps f lf st1 h1 rest with
      | none => none
      | some (st2, h2, evs2) => some (st2, h2, evs1 ++ evs2)

/-- The tick dispatches of an event list: `(timePassed, visual, tickNo)`. -/
def ticksOf (evs : List Ev) : List (ℚ × Bool × ℤ) :=
  evs.filterMap fun e =>
    match e with
    | .tickDispatch tp v _ k => some (tp, v, k)
    | _ => none

/-- The `isRunning` flag at each tick dispatch of an event list. -/
def ticksRun (evs : List Ev) : List Bool :=
  evs.filterMap fun e =>
    match e with
    | .tickDispatch _ _ r _ => some r
    | _ => none

/-- Whether an event is a notification on the resume, pause or tick
channel — exactly the channels `dispose()` detaches. -/
def badNotify : Ev → Bool
  | .notify .resume _ => true
  | .notify .pauseCh _ => true
  | .notify .tick _ => true
  | _ => false

end FrameTicker

namespace FrameTicker

@[simp] theorem ticksOf_nil : ticksOf [] = [] := rfl

@[simp] theorem ticksOf_cons_notify (c : Chan) (i : ℕ) (t : List Ev) :
    ticksOf (Ev.notify c i :: t) = ticksOf t := rfl

@[simp] theorem ticksOf_cons_tick (tp : ℚ) (v r : Bool) (k : ℤ) (t : List Ev) :
    ticksOf (Ev.tickDispatch tp v r k :: t) = (tp, v, k) :: ticksOf t := rfl

@[simp] theorem ticksOf_append (a b : List Ev) :
    ticksOf (a ++ b) = ticksOf a ++ ticksOf b := by
  simp [ticksOf, List.filterMap_append]

@[simp] theorem ticksRun_nil : ticksRun [] = [] := rfl

@[simp] theorem ticksRun_cons_notify (c : Chan) (i : ℕ) (t : List Ev) :
    ticksRun (Ev.notify c i :: t) = ticksRun t := rfl

@[simp] theorem ticksRun_cons_tick (tp : ℚ) (v r : Bool) (k : ℤ) (t : List Ev) :
    ticksRun (Ev.tickDispatch tp v r k :: t) = r :: ticksRun t := rfl

@[simp] theorem ticksRun_append (a b : List Ev) :
    ticksRun (a ++ b) = ticksRun a ++ ticksRun b := by
  simp [ticksRun, List.filterMap_append]

/-- Equality of all fields a signal dispatch cannot change: everything
except `isRunning`, `animationFrameHandle` (a listener may call
`pause()`). -/
def SameCore (a b : FrameTicker) : Prop :=
  a.timeScale = b.timeScale ∧ a.currentTick = b.currentTick ∧
  a.currentTime = b.currentTime ∧ a.tickDeltaTime = b.tickDeltaTime ∧
  a.lastTimeUpdated = b.lastTimeUpdated ∧ a.minFPS = b.minFPS ∧
  a.maxFPS = b.maxFPS ∧ a.minInterval = b.minInterval ∧
  a.maxInterval = b.maxInterval ∧ a.onResume = b.onResume ∧
  a.onPause = b.onPause ∧ a.onTick = b.onTick ∧
  a.onTickOncePerFrame = b.onTickOncePerFrame

theorem SameCore.refl (a : FrameTicker) : SameCore a a := by
  simp [SameCore]

theorem SameCore.trans {a b c : FrameTicker} (h1 : SameCore a b) (h2 : SameCore b c) :
    SameCore a c := by
  obtain ⟨e1, e2, e3, e4, e5, e6, e7, e8, e9, e10, e11, e12, e13⟩ := h1
  obtain ⟨g1, g2, g3, g4, g5, g6, g7, g8, g9, g10, g11, g12, g13⟩ := h2
  exact ⟨e1.trans g1, e2.trans g2, e3.trans g3, e4.trans g4, e5.trans g5,
    e6.trans g6, e7.trans g7, e8.trans g8, e9.trans g9, e10.trans g10,
    e11.trans g11, e12.trans g12, e13.trans g13⟩

theorem clearHandleStep_core (st : FrameTicker) (host : Host) :
    SameCore (clearHandleStep st host).1 st := by
  unfold clearHandleStep
  cases st.animationFrameHandle <;> simp [SameCore]

/-- A signal dispatch leaves every `SameCore` field unchanged, and every
event it emits is a notification — on the dispatched channel itself, or
on the pause channel when that channel has subscribers (a listener that
called `pause()`). -/
theorem dispatchGo_core : ∀ (f : ℕ) (c : Chan) (l : List (ℕ × HandlerAct))
    (st : FrameTicker) (host : Host) (r : FrameTicker × Host × List Ev),
    dispatchGo f c l st host = some r →
    SameCore r.1 st ∧
      ∀ e ∈ r.2.2, ∃ ii, e = Ev.notify c ii ∨
        (e = Ev.notify Chan.pauseCh ii ∧ st.onPause ≠ []) := by
  intro f
  induction f with
  | zero => intro c l st host r h; simp [dispatchGo] at h
  | succ f ih =>
    intro c l st host r h
    match l with
    | [] =>
      simp only [dispatchGo, Option.some.injEq] at h
      subst h
      exact ⟨SameCore.refl st, by simp⟩
    | (id, a) :: rest =>
      cases a with
      | noop =>
        simp only [dispatchGo] at h
        cases hrest : dispatchGo f c rest st host with
        | none => rw [hrest] at h; exact absurd h (by simp)
        | some rr =>
          obtain ⟨stR, hR, evsR⟩ := rr
          rw [hrest] at h
          simp only [Option.some.injEq] at h
          subst h
          obtain ⟨hc, he⟩ := ih c rest st host _ hrest
          refine ⟨hc, ?_⟩
          intro e hme
          simp only [List.mem_cons, List.nil_append] at hme
          rcases hme with rfl | hme
          · exact ⟨id, Or.inl rfl⟩
          · exact he e hme
      | pauseAct =>
        simp only [dispatchGo] at h
        by_cases hrun : st.isRunning
        · rw [if_pos hrun] at h
          cases hin : dispatchGo f Chan.pauseCh st.onPause { st with isRunning := false } host with
          | none => rw [hin] at h; exact absurd h (by simp)
          | some rin =>
            obtain ⟨st2, h2, evs2⟩ := rin
            rw [hin] at h
            dsimp only at h
            obtain ⟨hc2, he2⟩ := ih Chan.pauseCh st.onPause { st with isRunning := false } host _ hin
            cases hrest : dispatchGo f c rest (clearHandleStep st2 h2).1 (clearHandleStep st2 h2).2 with
            | none => rw [hrest] at h; exact absurd h (by simp)
            | some rr =>
              obtain ⟨stR, hR, evsR⟩ := rr
              rw [hrest] at h
              simp only [Option.some.injEq] at h
              subst h
              obtain ⟨hcR, heR⟩ := ih c rest _ _ _ hrest
              have hcore : SameCore stR st :=
                hcR.trans ((clearHandleStep_core st2 h2).trans (hc2.trans (by simp [SameCore])))
              refine ⟨hcore, ?_⟩
              intro e hme
              simp only [List.mem_cons, List.mem_append] at hme
              rcases hme with rfl | hme | hme
              · exact ⟨id, Or.inl rfl⟩
              · -- an event of the nested pause dispatch
                obtain ⟨ii, hii⟩ := he2 e hme
                by_cases hop : st.onPause = []
                · exfalso
                  rw [hop] at hin
                  cases f with
                  | zero => simp [dispatchGo] at hin
                  | succ f' =>
                    simp only [dispatchGo, Option.some.injEq] at hin
                    obtain ⟨rfl, rfl, rfl⟩ := hin.symm
                    simp at hme
                · refine ⟨ii, Or.inr ⟨?_, hop⟩⟩
                  rcases hii with hii | hii
                  · exact hii
                  · exact hii.1
              · -- an event of the remaining top-level dispatch
                obtain ⟨ii, hii⟩ := heR e hme
                have hop : (clearHandleStep st2 h2).1.onPause = st.onPause := by
                  obtain ⟨-, -, -, -, -, -, -, -, -, -, hp, -, -⟩ :=
                    (clearHandleStep_core st2 h2).trans (hc2.trans (SameCore.refl _))
                  simpa using hp
                rcases hii with hii | hii
                · exact ⟨ii, Or.inl hii⟩
                · exact ⟨ii, Or.inr ⟨hii.1, by rw [hop] at hii; exact hii.2⟩⟩
        · rw [if_neg hrun] at h
          dsimp only at h
          cases hrest : dispatchGo f c rest (clearHandleStep st host).1 (clearHandleStep st host).2 with
          | none => rw [hrest] at h; exact absurd h (by simp)
          | some rr =>
            obtain ⟨stR, hR, evsR⟩ := rr
            rw [hrest] at h
            simp only [Option.some.injEq] at h
            subst h
            obtain ⟨hcR, heR⟩ := ih c rest _ _ _ hrest
            refine ⟨hcR.trans (clearHandleStep_core st host), ?_⟩
            intro e hme
            simp only [List.mem_cons, List.nil_append] at hme
            rcases hme with rfl | hme
            · exact ⟨id, Or.inl rfl⟩
            · obtain ⟨ii, hii⟩ := heR e hme
              have hop : (clearHandleStep st host).1.onPause = st.onPause := by
                obtain ⟨-, -, -, -, -, -, -, -, -, -, hp, -, -⟩ := clearHandleStep_core st host
                simpa using hp
              rcases hii with hii | hii
              · exact ⟨ii, Or.inl hii⟩
              · exact ⟨ii, Or.inr ⟨hii.1, by rw [hop] at hii; exact hii.2⟩⟩

end FrameTicker

namespace FrameTicker

theorem ticksOf_eq_nil_of_notify {evs : List Ev}
    (h : ∀ e ∈ evs, ∃ cc ii, e = Ev.notify cc ii) : ticksOf evs = [] := by
  induction evs with
  | nil => rfl
  | cons e t ih =>
    obtain ⟨cc, ii, rfl⟩ := h e (List.mem_cons_self e t)
    exact (ticksOf_cons_notify cc ii t).trans (ih fun x hx => h x (List.mem_cons_of_mem _ hx))

theorem ticksRun_eq_nil_of_notify {evs : List Ev}
    (h : ∀ e ∈ evs, ∃ cc ii, e = Ev.notify cc ii) : ticksRun evs = [] := by
  induction evs with
  | nil => rfl
  | cons e t ih =>
    obtain ⟨cc, ii, rfl⟩ := h e (List.mem_cons_self e t)
    exact (ticksRun_cons_notify cc ii t).trans (ih fun x hx => h x (List.mem_cons_of_mem _ hx))

theorem dispatchGo_notify {f : ℕ} {c : Chan} {l : List (ℕ × HandlerAct)}
    {st : FrameTicker} {host : Host} {r : FrameTicker × Host × List Ev}
    (h : dispatchGo f c l st host = some r) :
    ∀ e ∈ r.2.2, ∃ cc ii, e = Ev.notify cc ii := by
  intro e he
  obtain ⟨ii, hii⟩ := (dispatchGo_core f c l st host r h).2 e he
  rcases hii with hii | hii
  · exact ⟨c, ii, hii⟩
  · exact ⟨Chan.pauseCh, ii, hii.1⟩

theorem dispatchGo_ticksOf {f : ℕ} {c : Chan} {l : List (ℕ × HandlerAct)}
    {st : FrameTicker} {host : Host} {r : FrameTicker × Host × List Ev}
    (h : dispatchGo f c l st host = some r) : ticksOf r.2.2 = [] :=
  ticksOf_eq_nil_of_notify (dispatchGo_notify h)

theorem dispatchGo_ticksRun {f : ℕ} {c : Chan} {l : List (ℕ × HandlerAct)}
    {st : FrameTicker} {host : Host} {r : FrameTicker × Host × List Ev}
    (h : dispatchGo f c l st host = some r) : ticksRun r.2.2 = [] :=
  ticksRun_eq_nil_of_notify (dispatchGo_notify h)

@[simp] theorem clearHandleStep_isRunning (st : FrameTicker) (host : Host) :
    (clearHandleStep st host).1.isRunning = st.isRunning := by
  unfold clearHandleStep
  cases st.animationFrameHandle <;> rfl

@[simp] theorem clearHandleStep_handle (st : FrameTicker) (host : Host)
    (h : st.animationFrameHandle = none) :
    (clearHandleStep st host).1.animationFrameHandle = none := by
  simp [clearHandleStep, h]

theorem clearHandleStep_handle_some (st : FrameTicker) (host : Host) (hd : ℕ)
    (h : st.animationFrameHandle = some hd) :
    (clearHandleStep st host).1.animationFrameHandle = none := by
  simp [clearHandleStep, h]

/-- A dispatch that starts with `isRunning` false keeps it false (the
only action a listener can take is `pause()`, which never sets it). -/
theorem dispatchGo_running_false : ∀ (f : ℕ) (c : Chan) (l : List (ℕ × HandlerAct))
    (st : FrameTicker) (host : Host) (r : FrameTicker × Host × List Ev),
    st.isRunning = false → dispatchGo f c l st host = some r → r.1.isRunning = false := by
  intro f
  induction f with
  | zero => intro c l st host r _ h; simp [dispatchGo] at h
  | succ f ih =>
    intro c l st host r hrun h
    match l with
    | [] =>
      simp only [dispatchGo, Option.some.injEq] at h
      subst h
      exact hrun
    | (id, a) :: rest =>
      cases a with
      | noop =>
        simp only [dispatchGo] at h
        cases hrest : dispatchGo f c rest st host with
        | none => rw [hrest] at h; exact absurd h (by simp)
        | some rr =>
          rw [hrest] at h
          obtain ⟨stR, hR, evsR⟩ := rr
          simp only [Option.some.injEq] at h
          subst h
          exact ih c rest st host (stR, hR, evsR) hrun hrest
      | pauseAct =>
        simp only [dispatchGo] at h
        rw [if_neg (by simp [hrun])] at h
        dsimp only at h
        cases hrest : dispatchGo f c rest (clearHandleStep st host).1 (clearHandleStep st host).2 with
        | none => rw [hrest] at h; exact absurd h (by simp)
        | some rr =>
          rw [hrest] at h
          obtain ⟨stR, hR, evsR⟩ := rr
          simp only [Option.some.injEq] at h
          subst h
          exact ih c rest _ _ (stR, hR, evsR) (by simp [hrun]) hrest

/-- A dispatch over listeners that all do nothing returns the state and
host unchanged and delivers one notification per subscriber. -/
theorem dispatchGo_noop : ∀ (f : ℕ) (c : Chan) (l : List (ℕ × HandlerAct))
    (st : FrameTicker) (host : Host) (r : FrameTicker × Host × List Ev),
    (∀ x ∈ l, x.2 = HandlerAct.noop) → dispatchGo f c l st host = some r →
    r.1 = st ∧ r.2.1 = host := by
  intro f
  induction f with
  | zero => intro c l st host r _ h; simp [dispatchGo] at h
  | succ f ih =>
    intro c l st host r hnoop h
    match l with
    | [] =>
      simp only [dispatchGo, Option.some.injEq] at h
      subst h
      exact ⟨rfl, rfl⟩
    | (id, a) :: rest =>
      have ha : a = HandlerAct.noop := hnoop (id, a) (List.mem_cons_self _ _)
      subst ha
      simp only [dispatchGo] at h
      cases hrest : dispatchGo f c rest st host with
      | none => rw [hrest] at h; exact absurd h (by simp)
      | some rr =>
        rw [hrest] at h
        obtain ⟨stR, hR, evsR⟩ := rr
        simp only [Option.some.injEq] at h
        subst h
        exact ih c rest st host (stR, hR, evsR) (fun x hx => hnoop x (List.mem_cons_of_mem _ hx)) hrest

end FrameTicker

namespace FrameTicker

/-- One `update` call: counters advance as the source writes them, the
event trace contains exactly one tick dispatch carrying `timePassed`,
the visual flag, and the pre-call `isRunning`. -/
theorem update_fields : ∀ (f : ℕ) (st : FrameTicker) (host : Host) (tp : ℚ) (vis : Bool)
    (r : FrameTicker × Host × List Ev), update f st host tp vis = some r →
    SameCore r.1 { st with currentTick := st.currentTick + 1,
                           currentTime := st.currentTime + tp, tickDeltaTime := tp } ∧
    ticksOf r.2.2 = [(tp, vis, st.currentTick + 1)] ∧
    ticksRun r.2.2 = [st.isRunning] := by
  intro f st host tp vis r h
  simp only [update] at h
  cases hd1 : dispatchGo f Chan.tick st.onTick
      { st with currentTick := st.currentTick + 1, currentTime := st.currentTime + tp, tickDeltaTime := tp } host with
  | none => rw [hd1] at h; exact absurd h (by simp)
  | some r2 =>
    obtain ⟨st2, h2, evs1⟩ := r2
    rw [hd1] at h
    dsimp only at h
    have hc1 := dispatchGo_core f Chan.tick st.onTick _ host _ hd1
    cases vis with
    | false =>
      simp only [Bool.false_eq_true, if_false, Option.some.injEq] at h
      subst h
      exact ⟨hc1.1, by simp [dispatchGo_ticksOf hd1], by simp [dispatchGo_ticksRun hd1]⟩
    | true =>
      simp only [if_true] at h
      cases hd2 : dispatchGo f Chan.tickOnce st2.onTickOncePerFrame st2 h2 with
      | none => rw [hd2] at h; exact absurd h (by simp)
      | some r3 =>
        obtain ⟨st3, h3, evs2⟩ := r3
        rw [hd2] at h
        simp only [Option.some.injEq] at h
        subst h
        have hc2 := dispatchGo_core f Chan.tickOnce st2.onTickOncePerFrame st2 h2 _ hd2
        refine ⟨hc2.1.trans hc1.1, ?_, ?_⟩
        · simp [dispatchGo_ticksOf hd1, dispatchGo_ticksOf hd2]
        · simp [dispatchGo_ticksRun hd1, dispatchGo_ticksRun hd2]

end FrameTicker

namespace FrameTicker

/-- The iteration count of the catch-up loop: either zero with the
guard initially false, or positive with `lastTimeUpdated` advancing by
`n` intervals, stopping strictly before the `(n+1)`-th. -/
def LoopN (last i now : ℚ) (n : ℕ) : Prop :=
  (n = 0 ∧ now < last + i) ∨
  (1 ≤ n ∧ last + (n : ℚ) * i ≤ now ∧ now < last + ((n : ℚ) + 1) * i)

/-- Characterization of the catch-up `while` loop: a completed run
performs some number `n` of iterations; the `j`-th tick (`0`-based)
carries `timePassed = interval * timeScale`, fires the once-per-frame
channel iff `now ≤ lastTimeUpdated + j*interval + maxInterval*2`, and
the counters advance accordingly.  All dispatch-preserved fields are
unchanged. -/
theorem onFrameLoop_char : ∀ (lf f : ℕ) (st : FrameTicker) (host : Host) (now i m : ℚ)
    (r : FrameTicker × Host × List Ev), onFrameLoop f lf st host now i m = some r →
    ∃ n : ℕ, LoopN st.lastTimeUpdated i now n ∧
      ticksOf r.2.2 = (List.range n).map (fun (j : ℕ) =>
        (i * st.timeScale,
         decide (now ≤ st.lastTimeUpdated + (j : ℚ) * i + m * 2),
         st.currentTick + (j : ℤ) + 1)) ∧
      r.1.currentTick = st.currentTick + (n : ℤ) ∧
      r.1.currentTime = st.currentTime + (n : ℚ) * (i * st.timeScale) ∧
      r.1.lastTimeUpdated = st.lastTimeUpdated + (n : ℚ) * i ∧
      r.1.timeScale = st.timeScale ∧
      r.1.minInterval = st.minInterval ∧ r.1.maxInterval = st.maxInterval ∧
      r.1.onResume = st.onResume ∧ r.1.onPause = st.onPause ∧
      r.1.onTick = st.onTick ∧ r.1.onTickOncePerFrame = st.onTickOncePerFrame := by
  intro lf
  induction lf with
  | zero => intro f st host now i m r h; simp [onFrameLoop] at h
  | succ lf ih =>
    intro f st host now i m r h
    simp only [onFrameLoop] at h
    by_cases hcond : st.lastTimeUpdated + i ≤ now
    · rw [if_pos hcond] at h
      cases hup : update f st host (i * st.timeScale)
          (decide (now ≤ st.lastTimeUpdated + m * 2)) with
      | none => rw [hup] at h; exact absurd h (by simp)
      | some r1 =>
        obtain ⟨st1, h1, evs1⟩ := r1
        rw [hup] at h
        dsimp only at h
        obtain ⟨hcore1, hticks1, -⟩ := update_fields f st host _ _ _ hup
        obtain ⟨uts, utick, utime, udelta, ulast, -, -, umin, umax, ures, upau,
          utk, utko⟩ := hcore1
        simp only at uts utick utime udelta ulast umin umax ures upau utk utko
        cases hrec : onFrameLoop f lf
            { st1 with lastTimeUpdated := st1.lastTimeUpdated + i } h1 now i m with
        | none => rw [hrec] at h; exact absurd h (by simp)
        | some r2 =>
          obtain ⟨st2, h2, evs2⟩ := r2
          rw [hrec] at h
          simp only [Option.some.injEq] at h
          subst h
          obtain ⟨n', hln, hticks2, ftick, ftime, flast, fts, fmin, fmax, fres,
            fpau, ftk, ftko⟩ := ih f _ h1 now i m _ hrec
          simp only [utick, utime, udelta, ulast, uts, umin, umax, ures, upau,
            utk, utko] at hln hticks2 ftick ftime flast fts fmin fmax fres fpau ftk ftko
          refine ⟨n' + 1, ?_, ?_, ?_, ?_, ?_, fts, fmin, fmax, fres, fpau, ftk, ftko⟩
          · rcases hln with ⟨rfl, hup'⟩ | ⟨hge, hlo, hup'⟩
            · refine Or.inr ⟨le_refl 1, ?_, ?_⟩
              · push_cast
                linarith
              · push_cast
                linarith
            · refine Or.inr ⟨by omega, ?_, ?_⟩
              · push_cast
                linarith
              · push_cast
                linarith
          · show ticksOf (evs1 ++ evs2) = _
            rw [ticksOf_append, hticks1, hticks2, List.range_succ_eq_map,
              List.map_cons, List.map_map]
            refine List.cons_eq_cons.mpr ⟨?_, ?_⟩
            · simp
            · refine List.map_congr_left ?_
              intro j hj
              have e1 : st.lastTimeUpdated + i + (j : ℚ) * i + m * 2 =
                  st.lastTimeUpdated + ((Nat.succ j : ℕ) : ℚ) * i + m * 2 := by
                push_cast; ring
              have e2 : st.currentTick + 1 + (j : ℤ) + 1 =
                  st.currentTick + ((Nat.succ j : ℕ) : ℤ) + 1 := by
                push_cast; ring
              simp only [Function.comp_apply, e1, e2]
          · rw [ftick]; push_cast; ring
          · rw [ftime]; push_cast; ring
          · rw [flast]; push_cast; ring
    · rw [if_neg hcond] at h
      simp only [Option.some.injEq] at h
      subst h
      refine ⟨0, Or.inl ⟨rfl, lt_of_not_le hcond⟩, by simp, by simp, by simp, by simp,
        rfl, rfl, rfl, rfl, rfl, rfl, rfl⟩

end FrameTicker

namespace FrameTicker

theorem LoopN_pos {last i now : ℚ} {n : ℕ} (h : LoopN last i now n) (hn : 1 ≤ n) :
    0 < i := by
  rcases h with ⟨rfl, -⟩ | ⟨-, hlo, hup⟩
  · omega
  · nlinarith

theorem LoopN_unique {last i now : ℚ} {n1 n2 : ℕ}
    (h1 : LoopN last i now n1) (h2 : LoopN last i now n2) : n1 = n2 := by
  rcases h1 with ⟨e1, u1⟩ | ⟨g1, lo1, u1⟩ <;> rcases h2 with ⟨e2, u2⟩ | ⟨g2, lo2, u2⟩
  · omega
  · exfalso
    have hi : 0 < i := LoopN_pos (Or.inr ⟨g2, lo2, u2⟩) g2
    have hc : (1 : ℚ) ≤ (n2 : ℚ) := by exact_mod_cast g2
    nlinarith
  · exfalso
    have hi : 0 < i := LoopN_pos (Or.inr ⟨g1, lo1, u1⟩) g1
    have hc : (1 : ℚ) ≤ (n1 : ℚ) := by exact_mod_cast g1
    nlinarith
  · have hi : 0 < i := LoopN_pos (Or.inr ⟨g1, lo1, u1⟩) g1
    by_contra hne
    rcases Nat.lt_or_ge n1 n2 with hlt | hge
    · have hc : (n1 : ℚ) + 1 ≤ (n2 : ℚ) := by exact_mod_cast hlt
      nlinarith
    · have hlt2 : n2 < n1 := by omega
      have hc : (n2 : ℚ) + 1 ≤ (n1 : ℚ) := by exact_mod_cast hlt2
      nlinarith

theorem animateOnce_same (st : FrameTicker) (host : Host) :
    SameCore (animateOnce st host).1 st ∧
      (animateOnce st host).1.isRunning = st.isRunning := by
  unfold animateOnce
  cases st.animationFrameHandle <;> simp [SameCore]

theorem animateOnce_registers (st : FrameTicker) (host : Host) :
    ∃ hd, (animateOnce st host).1.animationFrameHandle = some hd ∧
      hd ∈ (animateOnce st host).2.pending := by
  unfold animateOnce Host.requestAnimationFrame
  cases st.animationFrameHandle <;> simp [Host.cancelAnimationFrame]

/-- When the min-interval gate fails, `onFrame` skips the whole frame:
no events, no state change, only (when still running) re-registration. -/
theorem onFrame_skip (f lf : ℕ) (st : FrameTicker) (host : Host) (now : ℚ)
    (hgate : gatePasses st (now - st.lastTimeUpdated) = false) :
    onFrame f lf st host now =
      if st.isRunning then
        some ((animateOnce st host).1, (animateOnce st host).2, [])
      else some (st, host, []) := by
  simp only [onFrame, hgate, Bool.false_eq_true, if_false]

/-- When the gate passes and `maxInterval` is unbounded, `onFrame` is a
single `update` followed by `lastTimeUpdated = now` and the
re-registration decision. -/
theorem onFrame_simple (f lf : ℕ) (st : FrameTicker) (host : Host) (now : ℚ)
    (r : FrameTicker × Host × List Ev)
    (hmax : st.maxInterval = none)
    (hgate : gatePasses st (now - st.lastTimeUpdated) = true)
    (h : onFrame f lf st host now = some r) :
    ∃ st1 h1, update f st host ((now - st.lastTimeUpdated) * st.timeScale) true
        = some (st1, h1, r.2.2) ∧
      SameCore r.1 { st1 with lastTimeUpdated := now } ∧
      r.1.isRunning = st1.isRunning := by
  simp only [onFrame, hgate, if_true, hmax] at h
  cases hup : update f st host ((now - st.lastTimeUpdated) * st.timeScale) true with
  | none => rw [hup] at h; exact absurd h (by simp)
  | some r1 =>
    obtain ⟨st1, h1, evs⟩ := r1
    rw [hup] at h
    dsimp only at h
    by_cases hrun : ({ st1 with lastTimeUpdated := now } : FrameTicker).isRunning
    · rw [if_pos hrun] at h
      simp only [Option.some.injEq] at h
      subst h
      obtain ⟨hsc, hir⟩ := animateOnce_same { st1 with lastTimeUpdated := now } h1
      exact ⟨st1, h1, rfl, hsc, by simpa using hir⟩
    · rw [if_neg hrun] at h
      simp only [Option.some.injEq] at h
      subst h
      exact ⟨st1, h1, rfl, SameCore.refl _, rfl⟩

/-- When the gate passes and `maxInterval` is bounded, `onFrame` is the
catch-up loop at `interval = min frameDeltaTime maxInterval` followed by
the re-registration decision. -/
theorem onFrame_loopBranch (f lf : ℕ) (st : FrameTicker) (host : Host) (now m : ℚ)
    (r : FrameTicker × Host × List Ev)
    (hmax : st.maxInterval = some m)
    (hgate : gatePasses st (now - st.lastTimeUpdated) = true)
    (h : onFrame f lf st host now = some r) :
    ∃ stc hc, onFrameLoop f lf st host now (min (now - st.lastTimeUpdated) m) m
        = some (stc, hc, r.2.2) ∧
      SameCore r.1 stc ∧ r.1.isRunning = stc.isRunning := by
  simp only [onFrame, hgate, if_true, hmax] at h
  cases hloop : onFrameLoop f lf st host now (min (now - st.lastTimeUpdated) m) m with
  | none => rw [hloop] at h; exact absurd h (by simp)
  | some rc =>
    obtain ⟨stc, hc, evs⟩ := rc
    rw [hloop] at h
    dsimp only at h
    by_cases hrun : stc.isRunning
    · rw [if_pos hrun] at h
      simp only [Option.some.injEq] at h
      subst h
      obtain ⟨hsc, hir⟩ := animateOnce_same stc hc
      exact ⟨stc, hc, rfl, hsc, by simpa using hir⟩
    · rw [if_neg hrun] at h
      simp only [Option.some.injEq] at h
      subst h
      exact ⟨stc, hc, rfl, SameCore.refl _, rfl⟩

end FrameTicker

namespace FrameTicker

theorem clearHandleStep_handle_none (st : FrameTicker) (host : Host) :
    (clearHandleStep st host).1.animationFrameHandle = none := by
  cases hh : st.animationFrameHandle <;> simp [clearHandleStep, hh]

/-- `pause()` never changes the counters, always leaves `isRunning`
false and the frame handle cancelled, and emits only notifications. -/
theorem pause_facts (f : ℕ) (st : FrameTicker) (host : Host)
    (r : FrameTicker × Host × List Ev) (h : pause f st host = some r) :
    SameCore r.1 st ∧ r.1.isRunning = false ∧
    r.1.animationFrameHandle = none ∧
    (∀ e ∈ r.2.2, ∃ cc ii, e = Ev.notify cc ii) := by
  simp only [pause] at h
  by_cases hrun : st.isRunning
  · rw [if_pos hrun] at h
    cases hdis : dispatchGo f Chan.pauseCh st.onPause { st with isRunning := false } host with
    | none => rw [hdis] at h; exact absurd h (by simp)
    | some r2 =>
      obtain ⟨st2, h2, evs2⟩ := r2
      rw [hdis] at h
      dsimp only at h
      simp only [Option.some.injEq] at h
      subst h
      have hcore := (dispatchGo_core f Chan.pauseCh st.onPause _ host _ hdis).1
      have hrf : st2.isRunning = false :=
        dispatchGo_running_false f Chan.pauseCh st.onPause _ host _ rfl hdis
      refine ⟨(clearHandleStep_core st2 h2).trans (hcore.trans (by simp [SameCore])), ?_, ?_, ?_⟩
      · simp [hrf]
      · exact clearHandleStep_handle_none st2 h2
      · exact fun e he => dispatchGo_notify hdis e he
  · rw [if_neg hrun] at h
    dsimp only at h
    simp only [Option.some.injEq] at h
    subst h
    refine ⟨clearHandleStep_core st host, ?_, clearHandleStep_handle_none st host, by simp⟩
    simpa [Bool.not_eq_true] using hrun

/-- `dispose()`: counters and configuration are preserved, the ticker is
paused with its handle cancelled, the resume/pause/tick channels are
emptied, and the once-per-frame channel keeps its subscribers. -/
theorem dispose_facts (f : ℕ) (st : FrameTicker) (host : Host)
    (r : FrameTicker × Host × List Ev) (h : dispose f st host = some r) :
    r.1.isRunning = false ∧ r.1.animationFrameHandle = none ∧
    r.1.onResume = [] ∧ r.1.onPause = [] ∧ r.1.onTick = [] ∧
    r.1.onTickOncePerFrame = st.onTickOncePerFrame ∧
    r.1.timeScale = st.timeScale ∧ r.1.currentTick = st.currentTick ∧
    r.1.currentTime = st.currentTime ∧ r.1.tickDeltaTime = st.tickDeltaTime ∧
    r.1.lastTimeUpdated = st.lastTimeUpdated ∧
    r.1.minInterval = st.minInterval ∧ r.1.maxInterval = st.maxInterval ∧
    (∀ e ∈ r.2.2, ∃ cc ii, e = Ev.notify cc ii) := by
  simp only [dispose] at h
  cases hp : pause f st host with
  | none => rw [hp] at h; exact absurd h (by simp)
  | some rp =>
    obtain ⟨st1, h1, evs⟩ := rp
    rw [hp] at h
    simp only [Option.some.injEq] at h
    subst h
    obtain ⟨hcore, hrf, hhandle, hev⟩ := pause_facts f st host _ hp
    obtain ⟨uts, utick, utime, udelta, ulast, -, -, umin, umax, -, -, -, utko⟩ := hcore
    simp only at uts utick utime udelta ulast umin umax utko
    exact ⟨hrf, hhandle, rfl, rfl, rfl, utko, uts, utick, utime, udelta, ulast,
      umin, umax, hev⟩

end FrameTicker

open FrameTicker

/-- A fresh host with no pending registration; handles start at 1,
matching the browser's positive identifiers. -/
def host0 : Host := { nextHandle := 1, pending := [] }

/-- A running ticker with default configuration (both bounds unbounded),
zero counters and no subscribers. -/
def stBase : FrameTicker := {
  isRunning := true, timeScale := 1, currentTick := 0, currentTime := 0,
  tickDeltaTime := 0, minFPS := none, maxFPS := none, lastTimeUpdated := 0,
  minInterval := none, maxInterval := none,
  onResume := [], onPause := [], onTick := [], onTickOncePerFrame := [],
  animationFrameHandle := none }

/-- C9: `updateOnce(callback)` invokes the callback exactly once,
synchronously, with the snapshot `(currentTimeSeconds,
tickDeltaTimeSeconds, currentTick)`, leaves `currentTick`,
`currentTime` and `tickDeltaTime` unchanged and dispatches no channel
notification. -/
theorem c9_theorem (st : FrameTicker) :
    (updateOnce st).1 = [(currentTimeSeconds st, tickDeltaTimeSeconds st, st.currentTick)] ∧
    (updateOnce st).1.length = 1 ∧
    (updateOnce st).2.1 = st ∧
    (updateOnce st).2.1.currentTick = st.currentTick ∧
    (updateOnce st).2.1.currentTime = st.currentTime ∧
    (updateOnce st).2.1.tickDeltaTime = st.tickDeltaTime ∧
    (updateOnce st).2.2 = [] :=
  ⟨rfl, rfl, rfl, rfl, rfl, rfl, rfl⟩

/-- C5: when `minInterval` is bounded and `frameDelta < minInterval`,
`onFrame` dispatches no tick, leaves `currentTick`, `currentTime`,
`tickDeltaTime` and `lastTimeUpdated` unchanged, and — when the ticker
is still running — re-registers for the next visual frame. -/
theorem c5_theorem (f lf : ℕ) (st : FrameTicker) (host : Host) (now mi : ℚ)
    (hmin : st.minInterval = some mi) (hlt : now - st.lastTimeUpdated < mi) :
    ∃ st' h', onFrame f lf st host now = some (st', h', []) ∧
      st'.currentTick = st.currentTick ∧ st'.currentTime = st.currentTime ∧
      st'.tickDeltaTime = st.tickDeltaTime ∧
      st'.lastTimeUpdated = st.lastTimeUpdated ∧
      st'.isRunning = st.isRunning ∧
      (st.isRunning = true →
        ∃ hd, st'.animationFrameHandle = some hd ∧ hd ∈ h'.pending) ∧
      (st.isRunning = false → st' = st ∧ h' = host) := by
  have hgate : gatePasses st (now - st.lastTimeUpdated) = false := by
    simp only [gatePasses, hmin, decide_eq_false_iff_not, not_le]
    exact hlt
  rw [onFrame_skip f lf st host now hgate]
  by_cases hrun : st.isRunning
  · rw [if_pos hrun]
    obtain ⟨same, hir⟩ := animateOnce_same st host
    obtain ⟨hd, hh, hmem⟩ := animateOnce_registers st host
    obtain ⟨-, etick, etime, edelta, elast, -, -, -, -, -, -, -, -⟩ := same
    exact ⟨(animateOnce st host).1, (animateOnce st host).2, rfl, etick, etime,
      edelta, elast, by rw [hir], fun _ => ⟨hd, hh, hmem⟩,
      fun hf => absurd hrun (by simp [hf])⟩
  · rw [if_neg hrun]
    exact ⟨st, host, rfl, rfl, rfl, rfl, rfl, rfl,
      fun hcon => absurd hcon hrun, fun _ => ⟨rfl, rfl⟩⟩

/-- The ticker used by the C5 witness: a rate cap of `maxFPS = 10`
(`minInterval = 100` ms). -/
def stC5 : FrameTicker := { stBase with maxFPS := some 10, minInterval := some 100 }

unseal Rat.add Rat.sub Rat.mul Rat.inv in
/-- Witness for C5: a frame arriving 50 ms after the last update is
skipped entirely while a new registration is made. -/
theorem c5_witness :
    stC5.minInterval = some 100 ∧ (50 : ℚ) - stC5.lastTimeUpdated < 100 ∧
    (∃ st' h', onFrame 2 5 stC5 host0 50 = some (st', h', []) ∧
      st'.currentTick = stC5.currentTick ∧ st'.currentTime = stC5.currentTime ∧
      st'.tickDeltaTime = stC5.tickDeltaTime ∧
      st'.lastTimeUpdated = stC5.lastTimeUpdated ∧
      st'.isRunning = stC5.isRunning ∧
      (stC5.isRunning = true →
        ∃ hd, st'.animationFrameHandle = some hd ∧ hd ∈ h'.pending) ∧
      (stC5.isRunning = false → st' = stC5 ∧ h' = host0)) :=
  ⟨rfl, by decide, c5_theorem 2 5 stC5 host0 50 100 rfl (by decide)⟩

/-- C6: when `maxInterval` is unbounded and the min-interval gate
passes, `onFrame` dispatches exactly one tick whose `timePassed` is
`frameDelta * timeScale`, marked as the visual-frame tick (it fires the
once-per-frame channel), and sets `lastTimeUpdated = now`. -/
theorem c6_theorem (f lf : ℕ) (st : FrameTicker) (host : Host) (now : ℚ)
    (r : FrameTicker × Host × List Ev)
    (hmax : st.maxInterval = none)
    (hgate : gatePasses st (now - st.lastTimeUpdated) = true)
    (h : onFrame f lf st host now = some r) :
    ticksOf r.2.2 =
      [((now - st.lastTimeUpdated) * st.timeScale, true, st.currentTick + 1)] ∧
    r.1.lastTimeUpdated = now ∧
    r.1.currentTick = st.currentTick + 1 ∧
    r.1.currentTime = st.currentTime + (now - st.lastTimeUpdated) * st.timeScale := by
  obtain ⟨st1, h1, hup, hsc, hir⟩ := onFrame_simple f lf st host now r hmax hgate h
  obtain ⟨hcore, hticks, -⟩ := update_fields f st host _ true _ hup
  obtain ⟨-, utick, utime, -, -, -, -, -, -, -, -, -, -⟩ := hcore
  simp only at utick utime
  obtain ⟨-, rtick, rtime, -, rlast, -, -, -, -, -, -, -, -⟩ := hsc
  simp only at rtick rtime rlast
  exact ⟨hticks, rlast, by rw [rtick, utick], by rw [rtime, utime]⟩

/-- The result of the C6 witness run: one frame of the default ticker at
`now = 10`. -/
def rC6 : FrameTicker × Host × List Ev :=
  (onFrame 2 5 stBase host0 10).getD (stBase, host0, [])

unseal Rat.add Rat.sub Rat.mul Rat.inv in
/-- Witness for C6: the default (unbounded) ticker at `now = 10` emits
one visual tick of 10 ms and jumps `lastTimeUpdated` to 10. -/
theorem c6_witness :
    stBase.maxInterval = none ∧
    gatePasses stBase (10 - stBase.lastTimeUpdated) = true ∧
    onFrame 2 5 stBase host0 10 = some rC6 ∧
    (ticksOf rC6.2.2 =
      [((10 - stBase.lastTimeUpdated) * stBase.timeScale, true, stBase.currentTick + 1)] ∧
    rC6.1.lastTimeUpdated = 10 ∧
    rC6.1.currentTick = stBase.currentTick + 1 ∧
    rC6.1.currentTime = stBase.currentTime + (10 - stBase.lastTimeUpdated) * stBase.timeScale) :=
  ⟨rfl, rfl, by decide, c6_theorem 2 5 stBase host0 10 rC6 rfl rfl (by decide)⟩

/-- C10: `resume()` after `dispose()` is not guarded against: it sets
`isRunning`, records the clock as `lastTimeUpdated`, dispatches on the
(emptied) resume channel — delivering nothing — and registers a new
visual-frame request, exactly as on a merely paused instance; counters
survive unchanged. -/
theorem c10_theorem (f f2 : ℕ) (st : FrameTicker) (host : Host) (now : ℚ)
    (rd rr : FrameTicker × Host × List Ev)
    (hd : dispose f st host = some rd)
    (hr : resume f2 rd.1 rd.2.1 now = some rr) :
    rr.1.isRunning = true ∧ rr.1.lastTimeUpdated = now ∧ rr.2.2 = [] ∧
    rr.1.currentTick = st.currentTick ∧ rr.1.currentTime = st.currentTime ∧
    ∃ hdl, rr.1.animationFrameHandle = some hdl ∧ hdl ∈ rr.2.1.pending := by
  obtain ⟨hrf, hhandle, hres, hpau, htick, htko, hts, htk, htm, hdel, hlast,
    hmin, hmax, hev⟩ := dispose_facts f st host rd hd
  simp only [resume, hrf, Bool.false_eq_true, if_false, hres] at hr
  cases f2 with
  | zero => simp [dispatchGo] at hr
  | succ f2' =>
    simp only [dispatchGo] at hr
    simp only [Option.some.injEq] at hr
    subst hr
    obtain ⟨same, hirun⟩ :=
      animateOnce_same { rd.1 with isRunning := true, lastTimeUpdated := now } rd.2.1
    obtain ⟨hdl, hh, hmem⟩ :=
      animateOnce_registers { rd.1 with isRunning := true, lastTimeUpdated := now } rd.2.1
    obtain ⟨-, atick, atime, -, alast, -, -, -, -, -, -, -, -⟩ := same
    simp only at atick atime alast hirun
    exact ⟨hirun, alast, rfl, atick.trans htk, atime.trans htm, hdl, hh, hmem⟩

/-- A disposed ticker for the C10 witness: subscribers everywhere, a
pending frame handle, some accumulated state. -/
def stC10 : FrameTicker := { stBase with
  currentTick := 7
  currentTime := 140
  tickDeltaTime := 20
  onResume := [(0, HandlerAct.noop)]
  onPause := [(1, HandlerAct.noop)]
  onTick := [(2, HandlerAct.noop)]
  onTickOncePerFrame := [(3, HandlerAct.noop)]
  animationFrameHandle := some 1 }

/-- The C10 witness runs: dispose, then resume at `now = 50`. -/
def rC10d : FrameTicker × Host × List Ev :=
  (dispose 3 stC10 { nextHandle := 2, pending := [1] }).getD (stBase, host0, [])

/-- The resume-after-dispose result for the C10 witness. -/
def rC10r : FrameTicker × Host × List Ev :=
  (resume 3 rC10d.1 rC10d.2.1 50).getD (stBase, host0, [])

unseal Rat.add Rat.sub Rat.mul Rat.inv in
/-- Witness for C10: the disposed instance resumes: running again,
clock recorded, nothing delivered on the emptied resume channel, a new
registration made, counters intact. -/
theorem c10_witness :
    dispose 3 stC10 { nextHandle := 2, pending := [1] } = some rC10d ∧
    resume 3 rC10d.1 rC10d.2.1 50 = some rC10r ∧
    (rC10r.1.isRunning = true ∧ rC10r.1.lastTimeUpdated = 50 ∧ rC10r.2.2 = [] ∧
    rC10r.1.currentTick = stC10.currentTick ∧ rC10r.1.currentTime = stC10.currentTime ∧
    ∃ hdl, rC10r.1.animationFrameHandle = some hdl ∧ hdl ∈ rC10r.2.1.pending) :=
  ⟨by decide, by decide,
    c10_theorem 3 3 stC10 { nextHandle := 2, pending := [1] } 50 rC10d rC10r
      (by decide) (by decide)⟩

/-- The ticker of the C1 scenarios: `minFPS = 100`, so
`maxInterval = 10` ms; no listeners. -/
def stC1 : FrameTicker := { stBase with minFPS := some 100, maxInterval := some 10 }

unseal Rat.add Rat.sub Rat.mul Rat.inv in
/-- Counterexample to C1 as stated: with `maxInterval = 10` and a frame
arriving exactly `20` ms late, the catch-up burst has two ticks and
BOTH fire the once-per-frame channel — the earlier tick of the burst
does not fire only the plain tick channel. -/
theorem c1_counterexample :
    (onFrame 2 5 stC1 host0 20).map (fun r => (ticksOf r.2.2).map (fun tk => tk.2.1))
      = some [true, true] := by decide

/-- C1 (amended): in a catch-up burst each tick fires the
once-per-frame channel iff, at the moment it is dispatched,
`now ≤ lastTimeUpdated + 2*maxInterval` (conjunct two, with
`lastTimeUpdated = last + j*interval` at the `j`-th tick).  The last
tick of the burst always fires it (conjunct three), but it is not
always the only one: an earlier tick fires it exactly when it is the
second-to-last tick and `frameDelta` is the exact multiple
`n * interval` (conjunct four). -/
theorem c1_theorem (f lf : ℕ) (st : FrameTicker) (host : Host) (now m : ℚ)
    (r : FrameTicker × Host × List Ev)
    (hmax : st.maxInterval = some m)
    (hgate : gatePasses st (now - st.lastTimeUpdated) = true)
    (hpos : 0 < min (now - st.lastTimeUpdated) m)
    (h : onFrame f lf st host now = some r) :
    1 ≤ (ticksOf r.2.2).length ∧
    (∀ j, j < (ticksOf r.2.2).length →
      (ticksOf r.2.2)[j]? = some
        (min (now - st.lastTimeUpdated) m * st.timeScale,
         decide (now ≤ st.lastTimeUpdated +
           (j : ℚ) * min (now - st.lastTimeUpdated) m + m * 2),
         st.currentTick + (j : ℤ) + 1)) ∧
    (∀ tk ∈ (ticksOf r.2.2).getLast?, tk.2.1 = true) ∧
    (∀ j tk, j + 1 < (ticksOf r.2.2).length → (ticksOf r.2.2)[j]? = some tk →
      (tk.2.1 = true ↔ (j + 2 = (ticksOf r.2.2).length ∧
        now - st.lastTimeUpdated =
          ((ticksOf r.2.2).length : ℚ) * min (now - st.lastTimeUpdated) m))) := by
  obtain ⟨stc, hc, hloop, -, -⟩ := onFrame_loopBranch f lf st host now m r hmax hgate h
  obtain ⟨n, hln, hticks, -⟩ :=
    onFrameLoop_char lf f st host now (min (now - st.lastTimeUpdated) m) m _ hloop
  simp only at hticks
  have hi_le_fd : min (now - st.lastTimeUpdated) m ≤ now - st.lastTimeUpdated :=
    min_le_left _ _
  have hi_le_m : min (now - st.lastTimeUpdated) m ≤ m := min_le_right _ _
  have hcond : st.lastTimeUpdated + min (now - st.lastTimeUpdated) m ≤ now := by
    linarith
  obtain ⟨hn1, hlo, hup⟩ : 1 ≤ n ∧
      st.lastTimeUpdated + (n : ℚ) * min (now - st.lastTimeUpdated) m ≤ now ∧
      now < st.lastTimeUpdated + ((n : ℚ) + 1) * min (now - st.lastTimeUpdated) m := by
    rcases hln with ⟨rfl, hlt⟩ | hok
    · exact absurd hcond (not_le.mpr hlt)
    · exact hok
  have hlen : (ticksOf r.2.2).length = n := by
    rw [hticks, List.length_map, List.length_range]
  have hget : ∀ j, j < n → (ticksOf r.2.2)[j]? = some
      (min (now - st.lastTimeUpdated) m * st.timeScale,
       decide (now ≤ st.lastTimeUpdated +
         (j : ℚ) * min (now - st.lastTimeUpdated) m + m * 2),
       st.currentTick + (j : ℤ) + 1) := by
    intro j hj
    rw [hticks, List.getElem?_map, List.getElem?_range hj, Option.map_some']
  refine ⟨by omega, fun j hj => hget j (hlen ▸ hj), ?_, ?_⟩
  · intro tk htk
    rw [List.getLast?_eq_getElem?, hlen] at htk
    have hn1' : n - 1 < n := by omega
    rw [hget (n - 1) hn1'] at htk
    have hcast : ((n - 1 : ℕ) : ℚ) = (n : ℚ) - 1 := by
      have h1n : (1 : ℕ) ≤ n := hn1
      push_cast [h1n]
      ring
    simp only [Option.mem_def, Option.some.injEq] at htk
    subst htk
    simp only [decide_eq_true_iff]
    rw [hcast]
    nlinarith
  · intro j tk hj htk
    rw [hlen] at hj
    rw [hget j (by omega)] at htk
    simp only [Option.some.injEq] at htk
    subst htk
    rw [hlen]
    simp only [decide_eq_true_iff]
    have hieq : 2 ≤ n := by omega
    have hmeq : min (now - st.lastTimeUpdated) m = m := by
      rcases le_or_lt m (now - st.lastTimeUpdated) with hle | hgt
      · exact min_eq_right hle
      · exfalso
        have hmin : min (now - st.lastTimeUpdated) m = now - st.lastTimeUpdated :=
          min_eq_left (le_of_lt hgt)
        rw [hmin] at hlo hpos
        have hc2 : (2 : ℚ) ≤ (n : ℚ) := by exact_mod_cast hieq
        nlinarith
    rw [hmeq] at hlo hup hpos
    constructor
    · intro hdec
      rw [hmeq] at hdec
      have hjc : (j : ℚ) + 1 + 1 ≤ (n : ℚ) := by exact_mod_cast hj
      have hne : (n : ℚ) ≤ (j : ℚ) + 2 := by
        by_contra hcon
        push_neg at hcon
        nlinarith
      have hjn : j + 2 = n := by
        have h1 : (n : ℚ) = (j : ℚ) + 2 := by linarith
        exact_mod_cast h1.symm
      refine ⟨hjn, ?_⟩
      rw [hmeq]
      have hexp : (j : ℚ) * m + 2 * m = (n : ℚ) * m := by
        have hc : ((j : ℚ) + 2) = (n : ℚ) := by exact_mod_cast hjn
        calc (j : ℚ) * m + 2 * m = ((j : ℚ) + 2) * m := by ring
        _ = (n : ℚ) * m := by rw [hc]
      exact le_antisymm (by linarith) (by linarith)
    · rintro ⟨hjn, hfd⟩
      rw [hmeq] at hfd ⊢
      have hjc : ((j : ℚ) + 2) = (n : ℚ) := by exact_mod_cast hjn
      have hexp : (n : ℚ) * m = (j : ℚ) * m + m * 2 := by
        rw [← hjc]
        ring
      linarith

/-- The result of the C1 witness run: a 25 ms frame-delta... -/
def rC1 : FrameTicker × Host × List Ev :=
  (onFrame 2 6 stC1 host0 30).getD (stBase, host0, [])

unseal Rat.add Rat.sub Rat.mul Rat.inv in
/-- Witness for the amended C1: with `maxInterval = 10` and a 30 ms
frame delta the burst has three ticks; the characterization applies. -/
theorem c1_witness :
    stC1.maxInterval = some 10 ∧
    gatePasses stC1 (30 - stC1.lastTimeUpdated) = true ∧
    (0 : ℚ) < min (30 - stC1.lastTimeUpdated) 10 ∧
    onFrame 2 6 stC1 host0 30 = some rC1 ∧
    (1 ≤ (ticksOf rC1.2.2).length ∧
    (∀ j, j < (ticksOf rC1.2.2).length →
      (ticksOf rC1.2.2)[j]? = some
        (min (30 - stC1.lastTimeUpdated) 10 * stC1.timeScale,
         decide ((30 : ℚ) ≤ stC1.lastTimeUpdated +
           (j : ℚ) * min (30 - stC1.lastTimeUpdated) 10 + 10 * 2),
         stC1.currentTick + (j : ℤ) + 1)) ∧
    (∀ tk ∈ (ticksOf rC1.2.2).getLast?, tk.2.1 = true) ∧
    (∀ j tk, j + 1 < (ticksOf rC1.2.2).length → (ticksOf rC1.2.2)[j]? = some tk →
      (tk.2.1 = true ↔ (j + 2 = (ticksOf rC1.2.2).length ∧
        (30 : ℚ) - stC1.lastTimeUpdated =
          ((ticksOf rC1.2.2).length : ℚ) * min (30 - stC1.lastTimeUpdated) 10)))) :=
  ⟨rfl, rfl, by decide, by decide,
    c1_theorem 2 6 stC1 host0 30 10 rC1 rfl rfl (by decide) (by decide)⟩

namespace FrameTicker

/-- `update` with passive (noop) listeners on both tick channels: the
state changes by exactly the three counter writes, the host is
untouched, and the one tick event carries the pre-call `isRunning`. -/
theorem update_noop (f : ℕ) (st : FrameTicker) (host : Host) (tp : ℚ) (vis : Bool)
    (r : FrameTicker × Host × List Ev)
    (ht : ∀ x ∈ st.onTick, x.2 = HandlerAct.noop)
    (hto : ∀ x ∈ st.onTickOncePerFrame, x.2 = HandlerAct.noop)
    (h : update f st host tp vis = some r) :
    r.1 = { st with currentTick := st.currentTick + 1,
                    currentTime := st.currentTime + tp, tickDeltaTime := tp } ∧
    r.2.1 = host ∧ ticksRun r.2.2 = [st.isRunning] := by
  have hticks := (update_fields f st host tp vis r h).2.2
  simp only [update] at h
  cases hd1 : dispatchGo f Chan.tick st.onTick
      { st with currentTick := st.currentTick + 1, currentTime := st.currentTime + tp, tickDeltaTime := tp } host with
  | none => rw [hd1] at h; exact absurd h (by simp)
  | some r2 =>
    obtain ⟨st2, h2, evs1⟩ := r2
    rw [hd1] at h
    dsimp only at h
    obtain ⟨he1, hh1⟩ := dispatchGo_noop f Chan.tick st.onTick _ host _ ht hd1
    simp only at he1 hh1
    cases vis with
    | false =>
      simp only [Bool.false_eq_true, if_false, Option.some.injEq] at h
      subst h
      exact ⟨he1, hh1, hticks⟩
    | true =>
      simp only [if_true] at h
      cases hd2 : dispatchGo f Chan.tickOnce st2.onTickOncePerFrame st2 h2 with
      | none => rw [hd2] at h; exact absurd h (by simp)
      | some r3 =>
        obtain ⟨st3, h3, evs2⟩ := r3
        rw [hd2] at h
        simp only [Option.some.injEq] at h
        subst h
        have hto2 : ∀ x ∈ st2.onTickOncePerFrame, x.2 = HandlerAct.noop := by
          rw [he1]
          exact hto
        obtain ⟨he2, hh2⟩ := dispatchGo_noop f Chan.tickOnce st2.onTickOncePerFrame st2 h2 _ hto2 hd2
        simp only at he2 hh2
        exact ⟨he2.trans he1, hh2.trans hh1, hticks⟩

/-- The catch-up loop with passive tick listeners: every tick event
carries the entry value of `isRunning`, which is also preserved. -/
theorem onFrameLoop_noop_run : ∀ (lf f : ℕ) (st : FrameTicker) (host : Host)
    (now i m : ℚ) (r : FrameTicker × Host × List Ev),
    (∀ x ∈ st.onTick, x.2 = HandlerAct.noop) →
    (∀ x ∈ st.onTickOncePerFrame, x.2 = HandlerAct.noop) →
    onFrameLoop f lf st host now i m = some r →
    (∀ b ∈ ticksRun r.2.2, b = st.isRunning) ∧ r.1.isRunning = st.isRunning := by
  intro lf
  induction lf with
  | zero => intro f st host now i m r _ _ h; simp [onFrameLoop] at h
  | succ lf ih =>
    intro f st host now i m r ht hto h
    simp only [onFrameLoop] at h
    by_cases hcond : st.lastTimeUpdated + i ≤ now
    · rw [if_pos hcond] at h
      cases hup : update f st host (i * st.timeScale)
          (decide (now ≤ st.lastTimeUpdated + m * 2)) with
      | none => rw [hup] at h; exact absurd h (by simp)
      | some r1 =>
        obtain ⟨st1, h1, evs1⟩ := r1
        rw [hup] at h
        dsimp only at h
        obtain ⟨hst1, hh1, hrun1⟩ := update_noop f st host _ _ _ ht hto hup
        simp only at hst1 hh1 hrun1
        cases hrec : onFrameLoop f lf
            { st1 with lastTimeUpdated := st1.lastTimeUpdated + i } h1 now i m with
        | none => rw [hrec] at h; exact absurd h (by simp)
        | some r2 =>
          obtain ⟨st2, h2, evs2⟩ := r2
          rw [hrec] at h
          simp only [Option.some.injEq] at h
          subst h
          have ht2 : ∀ x ∈ ({ st1 with lastTimeUpdated := st1.lastTimeUpdated + i } : FrameTicker).onTick,
              x.2 = HandlerAct.noop := by
            simp only [hst1]
            exact ht
          have hto2 : ∀ x ∈ ({ st1 with lastTimeUpdated := st1.lastTimeUpdated + i } : FrameTicker).onTickOncePerFrame,
              x.2 = HandlerAct.noop := by
            simp only [hst1]
            exact hto
          obtain ⟨hflags, hrun2⟩ := ih f _ h1 now i m _ ht2 hto2 hrec
          have hrunpre : ({ st1 with lastTimeUpdated := st1.lastTimeUpdated + i } : FrameTicker).isRunning
              = st.isRunning := by
            simp only [hst1]
          constructor
          · intro b hb
            simp only [ticksRun_append, List.mem_append] at hb
            rcases hb with hb | hb
            · rw [hrun1] at hb
              simpa using hb
            · exact (hflags b hb).trans hrunpre
          · exact hrun2.trans hrunpre
    · rw [if_neg hcond] at h
      simp only [Option.some.injEq] at h
      subst h
      exact ⟨by simp, rfl⟩

end FrameTicker

/-- The ticker of the C3 counterexample: `maxInterval = 10` and a tick
listener that calls `pause()`. -/
def stC3 : FrameTicker := { stBase with
  minFPS := some 100
  maxInterval := some 10
  onTick := [(0, HandlerAct.pauseAct)]
  animationFrameHandle := some 1 }

unseal Rat.add Rat.sub Rat.mul Rat.inv in
/-- Counterexample to C3 as stated: with a 20 ms frame delta the burst
has two ticks; the listener pauses during the first, yet the second is
still dispatched — with `isRunning` already false. -/
theorem c3_counterexample :
    (onFrame 3 5 stC3 { nextHandle := 2, pending := [1] } 20).map
      (fun r => ticksRun r.2.2) = some [true, false] := by decide

/-- C3 (amended): provided no tick or once-per-frame listener pauses
the ticker mid-pump (all their actions are passive), every tick
dispatched by a frame-pump invocation that starts with `isRunning true`
is dispatched while `isRunning` is true.  (The counterexample shows the
unqualified claim fails: the catch-up loop does not re-check
`isRunning`, so a listener pausing mid-burst does not stop the
remaining ticks of that burst.) -/
theorem c3_theorem (f lf : ℕ) (st : FrameTicker) (host : Host) (now : ℚ)
    (r : FrameTicker × Host × List Ev)
    (ht : ∀ x ∈ st.onTick, x.2 = HandlerAct.noop)
    (hto : ∀ x ∈ st.onTickOncePerFrame, x.2 = HandlerAct.noop)
    (hrun : st.isRunning = true)
    (h : onFrame f lf st host now = some r) :
    ∀ b ∈ ticksRun r.2.2, b = true := by
  by_cases hgate : gatePasses st (now - st.lastTimeUpdated) = true
  · cases hmax : st.maxInterval with
    | some m =>
      obtain ⟨stc, hc, hloop, -, -⟩ := onFrame_loopBranch f lf st host now m r hmax hgate h
      obtain ⟨hflags, -⟩ := onFrameLoop_noop_run lf f st host now
        (min (now - st.lastTimeUpdated) m) m _ ht hto hloop
      intro b hb
      exact (hflags b hb).trans hrun
    | none =>
      obtain ⟨st1, h1, hup, -, -⟩ := onFrame_simple f lf st host now r hmax hgate h
      have hticks := (update_fields f st host _ true _ hup).2.2
      intro b hb
      rw [hticks] at hb
      simp only [List.mem_singleton] at hb
      exact hb.trans hrun
  · have hgf : gatePasses st (now - st.lastTimeUpdated) = false := by
      simpa using hgate
    rw [onFrame_skip f lf st host now hgf, hrun, if_pos rfl] at h
    simp only [Option.some.injEq] at h
    subst h
    simp

/-- The ticker of the C3 witness: same rate bounds, passive listeners. -/
def stC3w : FrameTicker := { stBase with
  minFPS := some 100
  maxInterval := some 10
  onTick := [(5, HandlerAct.noop)]
  onTickOncePerFrame := [(6, HandlerAct.noop)] }

/-- The result of the C3 witness run. -/
def rC3 : FrameTicker × Host × List Ev :=
  (onFrame 3 5 stC3w host0 20).getD (stBase, host0, [])

unseal Rat.add Rat.sub Rat.mul Rat.inv in
/-- Witness for the amended C3: with passive listeners a two-tick burst
dispatches every tick while running. -/
theorem c3_witness :
    (∀ x ∈ stC3w.onTick, x.2 = HandlerAct.noop) ∧
    (∀ x ∈ stC3w.onTickOncePerFrame, x.2 = HandlerAct.noop) ∧
    stC3w.isRunning = true ∧
    onFrame 3 5 stC3w host0 20 = some rC3 ∧
    (∀ b ∈ ticksRun rC3.2.2, b = true) :=
  ⟨by decide, by decide, rfl, by decide,
    c3_theorem 3 5 stC3w host0 20 rC3 (by decide) (by decide) rfl (by decide)⟩

namespace FrameTicker

/-- Fuel sufficiency for a dispatch that starts paused: no listener can
trigger a nested dispatch, so one unit per subscriber plus one. -/
theorem dispatchGo_total_notRunning : ∀ (l : List (ℕ × HandlerAct)) (f : ℕ) (c : Chan)
    (st : FrameTicker) (host : Host), st.isRunning = false → l.length + 1 ≤ f →
    (dispatchGo f c l st host).isSome = true := by
  intro l
  induction l with
  | nil =>
    intro f c st host _ hf
    cases f with
    | zero => omega
    | succ f => simp [dispatchGo]
  | cons x rest ih =>
    obtain ⟨id, a⟩ := x
    intro f c st host hrun hf
    cases f with
    | zero => omega
    | succ f =>
      cases a with
      | noop =>
        have hrest := ih f c st host hrun (by simp at hf ⊢; omega)
        rw [Option.isSome_iff_exists] at hrest
        obtain ⟨r, hr⟩ := hrest
        obtain ⟨rs, rh, re⟩ := r
        simp [dispatchGo, hr]
      | pauseAct =>
        simp only [dispatchGo, hrun, Bool.false_eq_true, if_false]
        have hcl : (clearHandleStep st host).1.isRunning = false := by
          rw [clearHandleStep_isRunning]
          exact hrun
        have hrest := ih f c (clearHandleStep st host).1 (clearHandleStep st host).2
          hcl (by simp at hf ⊢; omega)
        rw [Option.isSome_iff_exists] at hrest
        obtain ⟨r, hr⟩ := hrest
        obtain ⟨rs, rh, re⟩ := r
        simp [hr]

/-- Fuel sufficiency for a dispatch in any state: one unit per
subscriber, plus the pause channel for a possible nested dispatch. -/
theorem dispatchGo_total : ∀ (l : List (ℕ × HandlerAct)) (f : ℕ) (c : Chan)
    (st : FrameTicker) (host : Host),
    l.length + st.onPause.length + 2 ≤ f →
    (dispatchGo f c l st host).isSome = true := by
  intro l
  induction l with
  | nil =>
    intro f c st host hf
    cases f with
    | zero => omega
    | succ f => simp [dispatchGo]
  | cons x rest ih =>
    obtain ⟨id, a⟩ := x
    intro f c st host hf
    cases f with
    | zero => omega
    | succ f =>
      cases a with
      | noop =>
        have hrest := ih f c st host (by simp at hf ⊢; omega)
        rw [Option.isSome_iff_exists] at hrest
        obtain ⟨r, hr⟩ := hrest
        obtain ⟨rs, rh, re⟩ := r
        simp [dispatchGo, hr]
      | pauseAct =>
        by_cases hrun : st.isRunning
        · have hin := dispatchGo_total_notRunning st.onPause f Chan.pauseCh
            { st with isRunning := false } host rfl (by simp at hf ⊢; omega)
          rw [Option.isSome_iff_exists] at hin
          obtain ⟨r2, hr2⟩ := hin
          obtain ⟨st2, h2, evs2⟩ := r2
          have hp2 : st2.onPause = st.onPause := by
            obtain ⟨-, -, -, -, -, -, -, -, -, -, hp, -, -⟩ :=
              (dispatchGo_core _ _ _ _ _ _ hr2).1
            simpa using hp
          have hrest := ih f c (clearHandleStep st2 h2).1 (clearHandleStep st2 h2).2
            (by
              have hp3 : (clearHandleStep st2 h2).1.onPause = st.onPause := by
                obtain ⟨-, -, -, -, -, -, -, -, -, -, hp, -, -⟩ :=
                  clearHandleStep_core st2 h2
                rw [hp, hp2]
              rw [hp3]
              simp at hf ⊢
              omega)
          rw [Option.isSome_iff_exists] at hrest
          obtain ⟨r, hr⟩ := hrest
          obtain ⟨rs, rh, re⟩ := r
          simp [dispatchGo, hrun, hr2, hr]
        · have hrf : st.isRunning = false := by simpa using hrun
          have hrest := ih f c (clearHandleStep st host).1 (clearHandleStep st host).2
            (by
              have hp3 : (clearHandleStep st host).1.onPause = st.onPause := by
                obtain ⟨-, -, -, -, -, -, -, -, -, -, hp, -, -⟩ :=
                  clearHandleStep_core st host
                exact hp
              rw [hp3]
              simp at hf ⊢
              omega)
          rw [Option.isSome_iff_exists] at hrest
          obtain ⟨r, hr⟩ := hrest
          obtain ⟨rs, rh, re⟩ := r
          simp [dispatchGo, hrf, hr]

/-- Fuel sufficiency for one `update` call. -/
theorem update_total (f : ℕ) (st : FrameTicker) (host : Host) (tp : ℚ) (vis : Bool)
    (hf : st.onTick.length + st.onTickOncePerFrame.length + st.onPause.length + 2 ≤ f) :
    (update f st host tp vis).isSome = true := by
  have h1 := dispatchGo_total st.onTick f Chan.tick
    { st with currentTick := st.currentTick + 1, currentTime := st.currentTime + tp, tickDeltaTime := tp }
    host (by simp; omega)
  rw [Option.isSome_iff_exists] at h1
  obtain ⟨r2, hr2⟩ := h1
  obtain ⟨st2, h2, evs1⟩ := r2
  obtain ⟨-, -, -, -, -, -, -, -, -, -, hp2, -, hto2⟩ := (dispatchGo_core _ _ _ _ _ _ hr2).1
  simp only at hp2 hto2
  cases vis with
  | false => simp [update, hr2]
  | true =>
    have h2d := dispatchGo_total st2.onTickOncePerFrame f Chan.tickOnce st2 h2
      (by rw [hto2, hp2]; omega)
    rw [Option.isSome_iff_exists] at h2d
    obtain ⟨r3, hr3⟩ := h2d
    obtain ⟨st3, h3, evs2⟩ := r3
    simp [update, hr2, hr3]

/-- One unfolding step of the catch-up loop. -/
theorem onFrameLoop_succ (f lf : ℕ) (st : FrameTicker) (host : Host) (now i m : ℚ) :
    onFrameLoop f (lf + 1) st host now i m =
      if st.lastTimeUpdated + i ≤ now then
        match update f st host (i * st.timeScale)
            (decide (now ≤ st.lastTimeUpdated + m * 2)) with
        | none => none
        | some (st1, h1, evs1) =>
          match onFrameLoop f lf
              { st1 with lastTimeUpdated := st1.lastTimeUpdated + i }
              h1 now i m with
          | none => none
          | some (st2, h2, evs2) => some (st2, h2, evs1 ++ evs2)
      else some (st, host, []) := rfl

/-- Fuel sufficiency for the catch-up loop: `n+1` iterations of loop
fuel and a per-dispatch budget derived from the (dispatch-invariant)
subscriber counts. -/
theorem onFrameLoop_total : ∀ (n : ℕ) (st : FrameTicker) (host : Host) (now i m : ℚ)
    (f : ℕ), LoopN st.lastTimeUpdated i now n → 0 < i →
    st.onTick.length + st.onTickOncePerFrame.length + st.onPause.length + 2 ≤ f →
    (onFrameLoop f (n + 1) st host now i m).isSome = true := by
  intro n
  induction n with
  | zero =>
    intro st host now i m f hln hi hf
    rcases hln with ⟨-, hlt⟩ | ⟨hc, -, -⟩
    · rw [onFrameLoop_succ, if_neg (not_le.mpr hlt)]
      simp
    · omega
  | succ n ih =>
    intro st host now i m f hln hi hf
    rcases hln with ⟨hz, -⟩ | ⟨-, hlo, hup⟩
    · omega
    · have hcond : st.lastTimeUpdated + i ≤ now := by
        have hcast : (1 : ℚ) ≤ ((n : ℚ) + 1) := by
          have : (0 : ℚ) ≤ (n : ℚ) := Nat.cast_nonneg n
          linarith
        have hxx : ((n : ℚ) + 1) * i ≥ 1 * i := by
          apply mul_le_mul_of_nonneg_right hcast (le_of_lt hi)
        push_cast at hlo
        nlinarith
      have hupd := update_total f st host (i * st.timeScale)
        (decide (now ≤ st.lastTimeUpdated + m * 2)) hf
      rw [Option.isSome_iff_exists] at hupd
      obtain ⟨r1, hr1⟩ := hupd
      obtain ⟨st1, h1, evs1⟩ := r1
      obtain ⟨hcore, -, -⟩ := update_fields f st host _ _ _ hr1
      obtain ⟨-, -, -, -, ulast, -, -, -, -, -, upau, utk, utko⟩ := hcore
      simp only at ulast upau utk utko
      have hln2 : LoopN ({ st1 with lastTimeUpdated := st1.lastTimeUpdated + i } : FrameTicker).lastTimeUpdated i now n := by
        simp only [ulast]
        cases n with
        | zero =>
          refine Or.inl ⟨rfl, ?_⟩
          push_cast at hup
          linarith
        | succ n' =>
          refine Or.inr ⟨by omega, ?_, ?_⟩
          · push_cast at hlo ⊢
            linarith
          · push_cast at hup ⊢
            linarith
      have hrec := ih { st1 with lastTimeUpdated := st1.lastTimeUpdated + i } h1 now i m f
        hln2 hi (by simp only [utk, utko, upau]; omega)
      rw [Option.isSome_iff_exists] at hrec
      obtain ⟨r2, hr2⟩ := hrec
      obtain ⟨st2, h2, evs2⟩ := r2
      rw [onFrameLoop_succ, if_pos hcond, hr1]
      dsimp only
      rw [hr2]
      rfl

end FrameTicker

namespace FrameTicker

/-- With a positive interval no larger than the frame delta, the loop's
iteration count exists: `n = ⌊frameDelta / interval⌋ ≥ 1`. -/
theorem exists_LoopN (last i now : ℚ) (hi : 0 < i) (hle : i ≤ now - last) :
    ∃ n : ℕ, 1 ≤ n ∧ LoopN last i now n := by
  have hq1 : (1 : ℚ) ≤ (now - last) / i := (one_le_div hi).mpr hle
  have h1z : (1 : ℤ) ≤ ⌊(now - last) / i⌋ := Int.le_floor.mpr (by push_cast; linarith)
  have htn : ((⌊(now - last) / i⌋.toNat : ℤ)) = ⌊(now - last) / i⌋ :=
    Int.toNat_of_nonneg (by omega)
  have hcast : ((⌊(now - last) / i⌋.toNat : ℕ) : ℚ) = ((⌊(now - last) / i⌋ : ℤ) : ℚ) := by
    exact_mod_cast congrArg (fun z => ((z : ℤ) : ℚ)) htn
  have hfl : ((⌊(now - last) / i⌋ : ℤ) : ℚ) ≤ (now - last) / i := Int.floor_le _
  have hfu : (now - last) / i < ((⌊(now - last) / i⌋ : ℤ) : ℚ) + 1 :=
    Int.lt_floor_add_one _
  have hmul : (now - last) / i * i = now - last := div_mul_cancel₀ _ (ne_of_gt hi)
  refine ⟨⌊(now - last) / i⌋.toNat, by omega, Or.inr ⟨by omega, ?_, ?_⟩⟩
  · rw [hcast]
    have := mul_le_mul_of_nonneg_right hfl (le_of_lt hi)
    rw [hmul] at this
    linarith
  · rw [hcast]
    have := mul_lt_mul_of_pos_right hfu hi
    rw [hmul] at this
    linarith

/-- A completed catch-up loop yields a completed `onFrame` with the
same events. -/
theorem onFrame_loop_some (f lf : ℕ) (st : FrameTicker) (host : Host) (now m : ℚ)
    (stc : FrameTicker) (hc : Host) (evsc : List Ev)
    (hmax : st.maxInterval = some m)
    (hgate : gatePasses st (now - st.lastTimeUpdated) = true)
    (hl : onFrameLoop f lf st host now (min (now - st.lastTimeUpdated) m) m
      = some (stc, hc, evsc)) :
    ∃ st' h', onFrame f lf st host now = some (st', h', evsc) := by
  simp only [onFrame, hgate, if_true, hmax, hl]
  by_cases hrun : stc.isRunning
  · rw [if_pos hrun]
    exact ⟨_, _, rfl⟩
  · rw [if_neg hrun]
    exact ⟨_, _, rfl⟩

end FrameTicker

/-- The ticker of the C7 counterexample: `minFPS = 5/2`, so
`maxInterval = 400` ms. -/
def stC7 : FrameTicker := { stBase with minFPS := some (5/2), maxInterval := some 400 }

unseal Rat.add Rat.sub Rat.mul Rat.inv in
/-- Counterexample to C7 as stated: with `maxInterval = 400` and a
frame delta of only 100 ms the loop still executes one iteration, but
`frameDelta / maxInterval = 1/4 < 1`: the claimed bound of "at most
frameDelta / maxInterval iterations" is violated. -/
theorem c7_counterexample :
    (onFrame 2 5 stC7 host0 100).map (fun r => (ticksOf r.2.2).length) = some 1 ∧
    ¬ ((1 : ℚ) ≤ (100 - stC7.lastTimeUpdated) / 400) := by
  refine ⟨by decide, by decide⟩

/-- C7 (amended): whenever `maxInterval` is bounded, the gate passes
and `interval = min(frameDelta, maxInterval)` is positive, the loop
terminates (some fuel completes the pump) after at least one and at
most `max 1 (frameDelta / maxInterval)` iterations.  (The original
bound `frameDelta / maxInterval` alone fails when
`frameDelta < maxInterval`, where one tick still fires.) -/
theorem c7_theorem (st : FrameTicker) (host : Host) (now m : ℚ)
    (hmax : st.maxInterval = some m)
    (hgate : gatePasses st (now - st.lastTimeUpdated) = true)
    (hpos : 0 < min (now - st.lastTimeUpdated) m) :
    ∃ f lf st' h' evs, onFrame f lf st host now = some (st', h', evs) ∧
      1 ≤ (ticksOf evs).length ∧
      ((ticksOf evs).length : ℚ) ≤ max 1 ((now - st.lastTimeUpdated) / m) := by
  have hile : min (now - st.lastTimeUpdated) m ≤ now - st.lastTimeUpdated :=
    min_le_left _ _
  have himle : min (now - st.lastTimeUpdated) m ≤ m := min_le_right _ _
  obtain ⟨n, hn1, hln⟩ := exists_LoopN st.lastTimeUpdated
    (min (now - st.lastTimeUpdated) m) now hpos hile
  have htot := onFrameLoop_total n st host now (min (now - st.lastTimeUpdated) m) m
    (st.onTick.length + st.onTickOncePerFrame.length + st.onPause.length + 2)
    hln hpos (le_refl _)
  rw [Option.isSome_iff_exists] at htot
  obtain ⟨rc, hrc⟩ := htot
  obtain ⟨stc, hc, evsc⟩ := rc
  obtain ⟨st', h', hof⟩ := onFrame_loop_some _ (n + 1) st host now m stc hc evsc
    hmax hgate hrc
  obtain ⟨n2, hln2, hticks, -⟩ := onFrameLoop_char (n + 1) _ st host now
    (min (now - st.lastTimeUpdated) m) m _ hrc
  have hn2 : n2 = n := FrameTicker.LoopN_unique hln2 hln
  simp only at hticks
  have hlen : (ticksOf evsc).length = n2 := by
    rw [hticks, List.length_map, List.length_range]
  refine ⟨_, n + 1, st', h', evsc, hof, ?_, ?_⟩
  · rw [hlen, hn2]
    omega
  · rw [hlen]
    rcases hln2 with ⟨hz, -⟩ | ⟨-, hlo, -⟩
    · omega
    · rcases le_or_lt m (now - st.lastTimeUpdated) with hle | hgt
      · have hmeq : min (now - st.lastTimeUpdated) m = m := min_eq_right hle
        rw [hmeq] at hlo hpos
        have hnd : (n2 : ℚ) ≤ (now - st.lastTimeUpdated) / m :=
          (le_div_iff₀ hpos).mpr (by linarith)
        exact le_trans hnd (le_max_right _ _)
      · have hmeq : min (now - st.lastTimeUpdated) m = now - st.lastTimeUpdated :=
          min_eq_left (le_of_lt hgt)
        rw [hmeq] at hlo hpos
        have hn2le : (n2 : ℚ) ≤ 1 := by
          by_contra hcon
          push_neg at hcon
          nlinarith
        exact le_trans hn2le (le_max_left _ _)

unseal Rat.add Rat.sub Rat.mul Rat.inv in
/-- Witness for the amended C7: the `maxInterval = 10` ticker with a
30 ms frame delta terminates within the bound. -/
theorem c7_witness :
    stC1.maxInterval = some 10 ∧
    gatePasses stC1 (30 - stC1.lastTimeUpdated) = true ∧
    (0 : ℚ) < min (30 - stC1.lastTimeUpdated) 10 ∧
    (∃ f lf st' h' evs, onFrame f lf stC1 host0 30 = some (st', h', evs) ∧
      1 ≤ (ticksOf evs).length ∧
      ((ticksOf evs).length : ℚ) ≤ max 1 ((30 - stC1.lastTimeUpdated) / 10)) :=
  ⟨rfl, rfl, by decide, c7_theorem stC1 host0 30 10 rfl rfl (by decide)⟩

/-- C4: two frame-pump executions from states differing only in
`timeScale` dispatch the same number of ticks with the same
once-per-frame flags and tick numbers, end with the same `currentTick`
and `lastTimeUpdated`, and corresponding ticks have `timePassed` in the
ratio of the two time scales (`tp2 * ts1 = tp1 * v`, division-free). -/
theorem c4_theorem (f lf : ℕ) (st : FrameTicker) (host : Host) (now v : ℚ)
    (r1 r2 : FrameTicker × Host × List Ev)
    (h1 : onFrame f lf st host now = some r1)
    (h2 : onFrame f lf { st with timeScale := v } host now = some r2) :
    (ticksOf r2.2.2).map (fun tk => (tk.2.1, tk.2.2)) =
      (ticksOf r1.2.2).map (fun tk => (tk.2.1, tk.2.2)) ∧
    r2.1.currentTick = r1.1.currentTick ∧
    r2.1.lastTimeUpdated = r1.1.lastTimeUpdated ∧
    (∀ p ∈ (ticksOf r1.2.2).zip (ticksOf r2.2.2),
      p.2.1 * st.timeScale = p.1.1 * v) := by
  by_cases hgate : gatePasses st (now - st.lastTimeUpdated) = true
  · cases hmax : st.maxInterval with
    | some m =>
      obtain ⟨sc1, hc1, hl1, hscA, -⟩ := onFrame_loopBranch f lf st host now m r1 hmax hgate h1
      obtain ⟨sc2, hc2, hl2, hscB, -⟩ := onFrame_loopBranch f lf
        { st with timeScale := v } host now m r2 hmax hgate h2
      obtain ⟨n1, hln1, ht1, ftick1, -, flast1, -⟩ := onFrameLoop_char lf f st host now
        (min (now - st.lastTimeUpdated) m) m _ hl1
      obtain ⟨n2, hln2, ht2, ftick2, -, flast2, -⟩ := onFrameLoop_char lf f
        { st with timeScale := v } host now (min (now - st.lastTimeUpdated) m) m _ hl2
      simp only at ht1 ht2 ftick1 ftick2 flast1 flast2
      have hn : n2 = n1 := LoopN_unique hln2 hln1
      subst hn
      obtain ⟨-, tk1, -, -, la1, -, -, -, -, -, -, -, -⟩ := hscA
      obtain ⟨-, tk2, -, -, la2, -, -, -, -, -, -, -, -⟩ := hscB
      refine ⟨?_, ?_, ?_, ?_⟩
      · rw [ht1, ht2, List.map_map, List.map_map]
        exact List.map_congr_left fun j hj => rfl
      · rw [tk1, tk2, ftick1, ftick2]
      · rw [la1, la2, flast1, flast2]
      · rw [ht1, ht2, List.zip_map']
        intro p hp
        simp only [List.mem_map] at hp
        obtain ⟨j, -, rfl⟩ := hp
        simp only
        ring
    | none =>
      obtain ⟨st1, hh1, hup1, hscA, -⟩ := onFrame_simple f lf st host now r1 hmax hgate h1
      obtain ⟨st2, hh2, hup2, hscB, -⟩ := onFrame_simple f lf
        { st with timeScale := v } host now r2 hmax hgate h2
      obtain ⟨hcore1, hticks1, -⟩ := update_fields f st host _ true _ hup1
      obtain ⟨hcore2, hticks2, -⟩ := update_fields f { st with timeScale := v } host _ true _ hup2
      simp only at hticks1 hticks2
      obtain ⟨-, utick1, -, -, -, -, -, -, -, -, -, -, -⟩ := hcore1
      obtain ⟨-, utick2, -, -, -, -, -, -, -, -, -, -, -⟩ := hcore2
      simp only at utick1 utick2
      obtain ⟨-, tk1, -, -, la1, -, -, -, -, -, -, -, -⟩ := hscA
      obtain ⟨-, tk2, -, -, la2, -, -, -, -, -, -, -, -⟩ := hscB
      simp only at tk1 tk2 la1 la2
      refine ⟨?_, ?_, ?_, ?_⟩
      · rw [hticks1, hticks2]
        rfl
      · rw [tk1, tk2, utick1, utick2]
      · rw [la1, la2]
      · rw [hticks1, hticks2]
        intro p hp
        simp only [List.zip_cons_cons, List.zip_nil_right, List.mem_singleton] at hp
        subst hp
        simp only
        ring
  · have hgf : gatePasses st (now - st.lastTimeUpdated) = false := by simpa using hgate
    rw [onFrame_skip f lf st host now hgf] at h1
    rw [onFrame_skip f lf { st with timeScale := v } host now hgf] at h2
    by_cases hrun : st.isRunning
    · rw [if_pos hrun] at h1
      rw [if_pos hrun] at h2
      simp only [Option.some.injEq] at h1 h2
      subst h1
      subst h2
      obtain ⟨sameA, -⟩ := animateOnce_same st host
      obtain ⟨sameB, -⟩ := animateOnce_same { st with timeScale := v } host
      obtain ⟨-, tkA, -, -, laA, -, -, -, -, -, -, -, -⟩ := sameA
      obtain ⟨-, tkB, -, -, laB, -, -, -, -, -, -, -, -⟩ := sameB
      simp only at tkA tkB laA laB
      exact ⟨rfl, by rw [tkA, tkB], by rw [laA, laB], by simp⟩
    · rw [if_neg hrun] at h1
      rw [if_neg hrun] at h2
      simp only [Option.some.injEq] at h1 h2
      subst h1
      subst h2
      exact ⟨rfl, rfl, rfl, by simp⟩

/-- Results of the two C4 witness runs: same state and frame time,
time scales 1 and 2. -/
def rC4a : FrameTicker × Host × List Ev :=
  (onFrame 2 6 stC1 host0 25).getD (stBase, host0, [])

/-- Second C4 witness run, with `timeScale = 2`. -/
def rC4b : FrameTicker × Host × List Ev :=
  (onFrame 2 6 { stC1 with timeScale := 2 } host0 25).getD (stBase, host0, [])

unseal Rat.add Rat.sub Rat.mul Rat.inv in
/-- Witness for C4: a 25 ms frame delta under `maxInterval = 10`, run
at time scales 1 and 2: same two ticks, same flags, scaled times. -/
theorem c4_witness :
    onFrame 2 6 stC1 host0 25 = some rC4a ∧
    onFrame 2 6 { stC1 with timeScale := 2 } host0 25 = some rC4b ∧
    ((ticksOf rC4b.2.2).map (fun tk => (tk.2.1, tk.2.2)) =
      (ticksOf rC4a.2.2).map (fun tk => (tk.2.1, tk.2.2)) ∧
    rC4b.1.currentTick = rC4a.1.currentTick ∧
    rC4b.1.lastTimeUpdated = rC4a.1.lastTimeUpdated ∧
    (∀ p ∈ (ticksOf rC4a.2.2).zip (ticksOf rC4b.2.2),
      p.2.1 * stC1.timeScale = p.1.1 * 2)) :=
  ⟨by decide, by decide,
    c4_theorem 2 6 stC1 host0 25 2 rC4a rC4b (by decide) (by decide)⟩

namespace FrameTicker

/-- A completed frame pump from a state with a non-negative time scale
and a clock that has not gone backwards never decreases `currentTick`
or `currentTime`, leaves `lastTimeUpdated` at or before `now`, and
preserves `timeScale`. -/
theorem onFrame_mono (f lf : ℕ) (st : FrameTicker) (host : Host) (now : ℚ)
    (r : FrameTicker × Host × List Ev)
    (hts : 0 ≤ st.timeScale) (hlast : st.lastTimeUpdated ≤ now)
    (h : onFrame f lf st host now = some r) :
    st.currentTick ≤ r.1.currentTick ∧ st.currentTime ≤ r.1.currentTime ∧
    r.1.lastTimeUpdated ≤ now ∧ r.1.timeScale = st.timeScale := by
  by_cases hgate : gatePasses st (now - st.lastTimeUpdated) = true
  · cases hmax : st.maxInterval with
    | some m =>
      obtain ⟨stc, hc, hloop, hsc, -⟩ := onFrame_loopBranch f lf st host now m r hmax hgate h
      obtain ⟨n, hln, -, ftick, ftime, flast, fts, -⟩ := onFrameLoop_char lf f st host now
        (min (now - st.lastTimeUpdated) m) m _ hloop
      obtain ⟨rts, rtick, rtime, -, rlast, -, -, -, -, -, -, -, -⟩ := hsc
      refine ⟨?_, ?_, ?_, rts.trans fts⟩
      · rw [rtick, ftick]
        have hn0 : (0 : ℤ) ≤ (n : ℤ) := Int.natCast_nonneg n
        linarith
      · rw [rtime, ftime]
        rcases hln with ⟨rfl, -⟩ | ⟨hn1, hlo, hup⟩
        · norm_num
        · have hi : 0 < min (now - st.lastTimeUpdated) m :=
            LoopN_pos (Or.inr ⟨hn1, hlo, hup⟩) hn1
          have hnn : (0 : ℚ) ≤ (n : ℚ) := Nat.cast_nonneg n
          have := mul_nonneg hnn (mul_nonneg (le_of_lt hi) hts)
          linarith
      · rw [rlast, flast]
        rcases hln with ⟨rfl, -⟩ | ⟨-, hlo, -⟩
        · norm_num
          exact hlast
        · exact hlo
    | none =>
      obtain ⟨st1, hh1, hup, hsc, -⟩ := onFrame_simple f lf st host now r hmax hgate h
      obtain ⟨hcore, -, -⟩ := update_fields f st host _ true _ hup
      obtain ⟨uts, utick, utime, -, -, -, -, -, -, -, -, -, -⟩ := hcore
      simp only at uts utick utime
      obtain ⟨rts, rtick, rtime, -, rlast, -, -, -, -, -, -, -, -⟩ := hsc
      simp only at rts rtick rtime rlast
      refine ⟨?_, ?_, ?_, rts.trans uts⟩
      · rw [rtick, utick]
        linarith
      · rw [rtime, utime]
        have := mul_nonneg (by linarith : (0 : ℚ) ≤ now - st.lastTimeUpdated) hts
        linarith
      · rw [rlast]
  · have hgf : gatePasses st (now - st.lastTimeUpdated) = false := by simpa using hgate
    rw [onFrame_skip f lf st host now hgf] at h
    by_cases hrun : st.isRunning
    · rw [if_pos hrun] at h
      simp only [Option.some.injEq] at h
      subst h
      obtain ⟨same, -⟩ := animateOnce_same st host
      obtain ⟨ats, atick, atime, -, alast, -, -, -, -, -, -, -, -⟩ := same
      exact ⟨le_of_eq atick.symm, le_of_eq atime.symm, alast ▸ hlast, ats⟩
    · rw [if_neg hrun] at h
      simp only [Option.some.injEq] at h
      subst h
      exact ⟨le_refl _, le_refl _, hlast, rfl⟩

/-- A completed `resume` keeps the counters and the time scale, and
leaves `lastTimeUpdated` at or before the clock it read. -/
theorem resume_mono (f : ℕ) (st : FrameTicker) (host : Host) (now : ℚ)
    (r : FrameTicker × Host × List Ev)
    (hlast : st.lastTimeUpdated ≤ now)
    (h : resume f st host now = some r) :
    r.1.currentTick = st.currentTick ∧ r.1.currentTime = st.currentTime ∧
    r.1.lastTimeUpdated ≤ now ∧ r.1.timeScale = st.timeScale := by
  simp only [resume] at h
  by_cases hrun : st.isRunning
  · rw [if_pos hrun] at h
    simp only [Option.some.injEq] at h
    subst h
    exact ⟨rfl, rfl, hlast, rfl⟩
  · rw [if_neg hrun] at h
    cases hdis : dispatchGo f Chan.resume st.onResume
        { st with isRunning := true, lastTimeUpdated := now } host with
    | none => rw [hdis] at h; exact absurd h (by simp)
    | some r2 =>
      obtain ⟨st2, h2, evs⟩ := r2
      rw [hdis] at h
      dsimp only at h
      simp only [Option.some.injEq] at h
      subst h
      obtain ⟨dts, dtick, dtime, -, dlast, -, -, -, -, -, -, -, -⟩ :=
        (dispatchGo_core _ _ _ _ _ _ hdis).1
      simp only at dts dtick dtime dlast
      obtain ⟨same, -⟩ := animateOnce_same st2 h2
      obtain ⟨ats, atick, atime, -, alast, -, -, -, -, -, -, -, -⟩ := same
      exact ⟨atick.trans dtick, atime.trans dtime, by rw [alast, dlast],
        ats.trans dts⟩

/-- `setTimeScale` changes at most `timeScale`. -/
theorem setTimeScale_fields (st : FrameTicker) (v : ℚ) :
    (st.setTimeScale v).currentTick = st.currentTick ∧
    (st.setTimeScale v).currentTime = st.currentTime ∧
    (st.setTimeScale v).lastTimeUpdated = st.lastTimeUpdated ∧
    ((st.setTimeScale v).timeScale = v ∨ (st.setTimeScale v).timeScale = st.timeScale) := by
  unfold setTimeScale
  by_cases hv : st.timeScale = v
  · rw [if_pos hv]
    exact ⟨rfl, rfl, rfl, Or.inr rfl⟩
  · rw [if_neg hv]
    exact ⟨rfl, rfl, rfl, Or.inl rfl⟩

/-- Lower bound and monotonicity of the clock values a schedule feeds
to `frame`/`resume` operations. -/
def timesLB (c : ℚ) : List Op → Bool
  | [] => true
  | Op.frame t :: rest => decide (c ≤ t) && timesLB t rest
  | Op.opResume t :: rest => decide (c ≤ t) && timesLB t rest
  | _ :: rest => timesLB c rest

/-- No `timeScale` assignment in the schedule is negative. -/
def noNegScale : List Op → Bool
  | [] => true
  | Op.opSetTimeScale v :: rest => decide (0 ≤ v) && noNegScale rest
  | _ :: rest => noNegScale rest

end FrameTicker

unseal Rat.add Rat.sub Rat.mul Rat.inv in
/-- Counterexample to C2 as stated: construct a default ticker
(`currentTime = 0`), assign `timeScale = -1` and pump one 10 ms frame:
`currentTime` becomes `-10`, strictly below its earlier value. -/
theorem c2_counterexample :
    (FrameTicker.new 2 none none false host0 0).map (fun p => p.1.currentTime)
      = some 0 ∧
    ((FrameTicker.new 2 none none false host0 0).bind
      (fun p => runOps 2 5 p.1 p.2.1 [Op.opSetTimeScale (-1), Op.frame 10])).map
      (fun p => p.1.currentTime) = some (-10) ∧
    ((-10 : ℚ) < 0) :=
  ⟨by decide, by decide, by decide⟩

/-- C2 (amended): over any completed sequence of operations whose
clock readings are non-decreasing (and at or after the state's
`lastTimeUpdated`) and whose `timeScale` assignments are all
non-negative, starting from a non-negative `timeScale`, `currentTick`
and `currentTime` never decrease.  (The counterexample shows the
unqualified claim fails: a negative `timeScale` makes `currentTime`
decrease, as does nothing else.) -/
theorem c2_theorem (f lf : ℕ) : ∀ (ops : List Op) (st : FrameTicker) (host : Host)
    (c : ℚ) (r : FrameTicker × Host × List Ev),
    0 ≤ st.timeScale → st.lastTimeUpdated ≤ c →
    timesLB c ops = true → noNegScale ops = true →
    runOps f lf st host ops = some r →
    st.currentTick ≤ r.1.currentTick ∧ st.currentTime ≤ r.1.currentTime := by
  intro ops
  induction ops with
  | nil =>
    intro st host c r _ _ _ _ h
    simp only [runOps, Option.some.injEq] at h
    subst h
    exact ⟨le_refl _, le_refl _⟩
  | cons op rest ih =>
    intro st host c r hts hlast htimes hscale h
    simp only [runOps] at h
    cases hstep : step f lf st host op with
    | none => rw [hstep] at h; exact absurd h (by simp)
    | some r1 =>
      obtain ⟨st1, h1, evs1⟩ := r1
      rw [hstep] at h
      dsimp only at h
      cases hrest : runOps f lf st1 h1 rest with
      | none => rw [hrest] at h; exact absurd h (by simp)
      | some r2 =>
        obtain ⟨st2, h2, evs2⟩ := r2
        rw [hrest] at h
        simp only [Option.some.injEq] at h
        subst h
        cases op with
        | frame t =>
          simp only [timesLB, Bool.and_eq_true, decide_eq_true_eq] at htimes
          obtain ⟨hct, htrest⟩ := htimes
          simp only [noNegScale] at hscale
          simp only [step] at hstep
          obtain ⟨m1, m2, m3, m4⟩ := onFrame_mono f lf st host t (st1, h1, evs1)
            hts (le_trans hlast hct) hstep
          simp only at m1 m2 m3 m4
          obtain ⟨i1, i2⟩ := ih st1 h1 t (st2, h2, evs2)
            (by rw [m4]; exact hts) m3 htrest hscale hrest
          exact ⟨le_trans m1 i1, le_trans m2 i2⟩
        | opResume t =>
          simp only [timesLB, Bool.and_eq_true, decide_eq_true_eq] at htimes
          obtain ⟨hct, htrest⟩ := htimes
          simp only [noNegScale] at hscale
          simp only [step] at hstep
          obtain ⟨m1, m2, m3, m4⟩ := resume_mono f st host t (st1, h1, evs1)
            (le_trans hlast hct) hstep
          simp only at m1 m2 m3 m4
          obtain ⟨i1, i2⟩ := ih st1 h1 t (st2, h2, evs2)
            (by rw [m4]; exact hts) m3 htrest hscale hrest
          exact ⟨le_of_eq m1.symm |>.trans i1, le_of_eq m2.symm |>.trans i2⟩
        | opPause =>
          simp only [timesLB] at htimes
          simp only [noNegScale] at hscale
          simp only [step] at hstep
          obtain ⟨hcore, -, -, -⟩ := pause_facts f st host (st1, h1, evs1) hstep
          obtain ⟨pts, ptick, ptime, -, plast, -, -, -, -, -, -, -, -⟩ := hcore
          simp only at pts ptick ptime plast
          obtain ⟨i1, i2⟩ := ih st1 h1 c (st2, h2, evs2)
            (by rw [pts]; exact hts) (by rw [plast]; exact hlast) htimes hscale hrest
          exact ⟨le_of_eq ptick.symm |>.trans i1, le_of_eq ptime.symm |>.trans i2⟩
        | opDispose =>
          simp only [timesLB] at htimes
          simp only [noNegScale] at hscale
          simp only [step] at hstep
          obtain ⟨-, -, -, -, -, -, dts, dtick, dtime, -, dlast, -, -, -⟩ :=
            dispose_facts f st host (st1, h1, evs1) hstep
          simp only at dts dtick dtime dlast
          obtain ⟨i1, i2⟩ := ih st1 h1 c (st2, h2, evs2)
            (by rw [dts]; exact hts) (by rw [dlast]; exact hlast) htimes hscale hrest
          exact ⟨le_of_eq dtick.symm |>.trans i1, le_of_eq dtime.symm |>.trans i2⟩
        | opSetTimeScale v =>
          simp only [timesLB] at htimes
          simp only [noNegScale, Bool.and_eq_true, decide_eq_true_eq] at hscale
          obtain ⟨hv, hsrest⟩ := hscale
          simp only [step, Option.some.injEq, Prod.mk.injEq] at hstep
          obtain ⟨rfl, rfl, rfl⟩ := hstep
          obtain ⟨stick, stime, slast, sts⟩ := setTimeScale_fields st v
          have hts1 : 0 ≤ (st.setTimeScale v).timeScale := by
            rcases sts with hv2 | hv2
            · rw [hv2]; exact hv
            · rw [hv2]; exact hts
          obtain ⟨i1, i2⟩ := ih (st.setTimeScale v) host c (st2, h2, evs2)
            hts1 (by rw [slast]; exact hlast) htimes hsrest hrest
          exact ⟨le_of_eq stick.symm |>.trans i1, le_of_eq stime.symm |>.trans i2⟩
        | opUpdateOnce =>
          simp only [timesLB] at htimes
          simp only [noNegScale] at hscale
          simp only [step, updateOnce, Option.some.injEq, Prod.mk.injEq] at hstep
          obtain ⟨rfl, rfl, rfl⟩ := hstep
          exact ih st host c (st2, h2, evs2) hts hlast htimes hscale hrest

/-- The schedule of the C2 witness. -/
def opsC2 : List Op :=
  [Op.opSetTimeScale 2, Op.frame 10, Op.opPause, Op.opResume 20, Op.frame 35]

/-- The result of the C2 witness run. -/
def rC2 : FrameTicker × Host × List Ev :=
  (runOps 3 5 stBase host0 opsC2).getD (stBase, host0, [])

unseal Rat.add Rat.sub Rat.mul Rat.inv in
/-- Witness for the amended C2: a five-operation schedule with
non-decreasing clock readings and a non-negative scale assignment
keeps both counters non-decreasing. -/
theorem c2_witness :
    (0 : ℚ) ≤ stBase.timeScale ∧ stBase.lastTimeUpdated ≤ 0 ∧
    timesLB 0 opsC2 = true ∧ noNegScale opsC2 = true ∧
    runOps 3 5 stBase host0 opsC2 = some rC2 ∧
    (stBase.currentTick ≤ rC2.1.currentTick ∧
     stBase.currentTime ≤ rC2.1.currentTime) :=
  ⟨by decide, by decide, by decide, by decide, by decide,
    c2_theorem 3 5 opsC2 stBase host0 0 rC2 (by decide) (by decide) (by decide)
      (by decide) (by decide)⟩

namespace FrameTicker

theorem dispatchGo_nil_some {f : ℕ} {c : Chan} {st : FrameTicker} {host : Host}
    {r : FrameTicker × Host × List Ev} (h : dispatchGo f c [] st host = some r) :
    r = (st, host, []) := by
  cases f with
  | zero => simp [dispatchGo] at h
  | succ f =>
    simp only [dispatchGo, Option.some.injEq] at h
    exact h.symm

/-- With no pause-channel subscribers, a dispatch notifies only its own
channel. -/
theorem dispatchGo_chanOnly {f : ℕ} {c : Chan} {l : List (ℕ × HandlerAct)}
    {st : FrameTicker} {host : Host} {r : FrameTicker × Host × List Ev}
    (hp : st.onPause = []) (h : dispatchGo f c l st host = some r) :
    ∀ e ∈ r.2.2, ∃ ii, e = Ev.notify c ii := by
  intro e he
  obtain ⟨ii, hii⟩ := (dispatchGo_core f c l st host r h).2 e he
  rcases hii with hii | hii
  · exact ⟨ii, hii⟩
  · exact absurd hp hii.2

/-- One `update` of a ticker whose tick and pause channels are empty
notifies no detached channel: every event is the tick-dispatch record
or a notification on the once-per-frame channel. -/
theorem dispatchGo_empty {f : ℕ} {c : Chan} {l : List (ℕ × HandlerAct)}
    {st : FrameTicker} {host : Host} {r : FrameTicker × Host × List Ev}
    (hl : l = []) (h : dispatchGo f c l st host = some r) : r = (st, host, []) := by
  subst hl
  exact dispatchGo_nil_some h

/-- One `update` of a ticker whose tick and pause channels are empty
notifies no detached channel: every event is the tick-dispatch record
or a notification on the once-per-frame channel. -/
theorem update_c8 (f : ℕ) (st : FrameTicker) (host : Host) (tp : ℚ) (vis : Bool)
    (r : FrameTicker × Host × List Ev)
    (ht : st.onTick = []) (hp : st.onPause = [])
    (h : update f st host tp vis = some r) :
    ∀ e ∈ r.2.2, badNotify e = false := by
  simp only [update] at h
  cases hd1 : dispatchGo f Chan.tick st.onTick
      { st with currentTick := st.currentTick + 1, currentTime := st.currentTime + tp, tickDeltaTime := tp } host with
  | none => rw [hd1] at h; exact absurd h (by simp)
  | some r2 =>
    obtain ⟨st2, h2, evs1⟩ := r2
    have hr2 := dispatchGo_empty ht hd1
    simp only [Prod.mk.injEq] at hr2
    obtain ⟨hst2, hh2, hevs1⟩ := hr2
    subst hevs1
    rw [hd1] at h
    dsimp only at h
    cases vis with
    | false =>
      simp only [Bool.false_eq_true, if_false, Option.some.injEq] at h
      subst h
      intro e he
      simp only [List.mem_cons, List.not_mem_nil, or_false] at he
      subst he
      rfl
    | true =>
      simp only [if_true] at h
      cases hd2 : dispatchGo f Chan.tickOnce st2.onTickOncePerFrame st2 h2 with
      | none => rw [hd2] at h; exact absurd h (by simp)
      | some r3 =>
        obtain ⟨st3, h3, evs2⟩ := r3
        rw [hd2] at h
        simp only [Option.some.injEq] at h
        subst h
        have hp2 : st2.onPause = [] := by
          rw [hst2]
          simpa using hp
        have hgood := dispatchGo_chanOnly hp2 hd2
        intro e he
        simp only [List.mem_cons, List.nil_append] at he
        rcases he with rfl | he
        · rfl
        · obtain ⟨ii, rfl⟩ := hgood e he
          rfl

/-- The catch-up loop of such a ticker notifies no detached channel. -/
theorem onFrameLoop_c8 : ∀ (lf f : ℕ) (st : FrameTicker) (host : Host)
    (now i m : ℚ) (r : FrameTicker × Host × List Ev),
    st.onTick = [] → st.onPause = [] →
    onFrameLoop f lf st host now i m = some r →
    ∀ e ∈ r.2.2, badNotify e = false := by
  intro lf
  induction lf with
  | zero => intro f st host now i m r _ _ h; simp [onFrameLoop] at h
  | succ lf ih =>
    intro f st host now i m r ht hp h
    simp only [onFrameLoop] at h
    by_cases hcond : st.lastTimeUpdated + i ≤ now
    · rw [if_pos hcond] at h
      cases hup : update f st host (i * st.timeScale)
          (decide (now ≤ st.lastTimeUpdated + m * 2)) with
      | none => rw [hup] at h; exact absurd h (by simp)
      | some r1 =>
        obtain ⟨st1, h1, evs1⟩ := r1
        rw [hup] at h
        dsimp only at h
        cases hrec : onFrameLoop f lf
            { st1 with lastTimeUpdated := st1.lastTimeUpdated + i } h1 now i m with
        | none => rw [hrec] at h; exact absurd h (by simp)
        | some r2 =>
          obtain ⟨st2, h2, evs2⟩ := r2
          rw [hrec] at h
          simp only [Option.some.injEq] at h
          subst h
          have hgood1 := update_c8 f st host _ _ _ ht hp hup
          obtain ⟨hcore, -, -⟩ := update_fields f st host _ _ _ hup
          obtain ⟨-, -, -, -, -, -, -, -, -, -, upau, utk, -⟩ := hcore
          simp only at upau utk
          have hgood2 := ih f { st1 with lastTimeUpdated := st1.lastTimeUpdated + i }
            h1 now i m _ (by simpa [utk] using ht) (by simpa [upau] using hp) hrec
          intro e he
          simp only [List.mem_append] at he
          rcases he with he | he
          · exact hgood1 e he
          · exact hgood2 e he
    · rw [if_neg hcond] at h
      simp only [Option.some.injEq] at h
      subst h
      simp

/-- A completed frame pump preserves all four subscriber lists. -/
theorem onFrame_channels (f lf : ℕ) (st : FrameTicker) (host : Host) (now : ℚ)
    (r : FrameTicker × Host × List Ev) (h : onFrame f lf st host now = some r) :
    r.1.onResume = st.onResume ∧ r.1.onPause = st.onPause ∧
    r.1.onTick = st.onTick ∧ r.1.onTickOncePerFrame = st.onTickOncePerFrame := by
  by_cases hgate : gatePasses st (now - st.lastTimeUpdated) = true
  · cases hmax : st.maxInterval with
    | some m =>
      obtain ⟨stc, hc, hloop, hsc, -⟩ := onFrame_loopBranch f lf st host now m r hmax hgate h
      obtain ⟨n, -, -, -, -, -, -, -, -, fres, fpau, ftk, ftko⟩ :=
        onFrameLoop_char lf f st host now (min (now - st.lastTimeUpdated) m) m _ hloop
      obtain ⟨-, -, -, -, -, -, -, -, -, rres, rpau, rtk, rtko⟩ := hsc
      exact ⟨rres.trans fres, rpau.trans fpau, rtk.trans ftk, rtko.trans ftko⟩
    | none =>
      obtain ⟨st1, hh1, hup, hsc, -⟩ := onFrame_simple f lf st host now r hmax hgate h
      obtain ⟨hcore, -, -⟩ := update_fields f st host _ true _ hup
      obtain ⟨-, -, -, -, -, -, -, -, -, ures, upau, utk, utko⟩ := hcore
      simp only at ures upau utk utko
      obtain ⟨-, -, -, -, -, -, -, -, -, rres, rpau, rtk, rtko⟩ := hsc
      simp only at rres rpau rtk rtko
      exact ⟨rres.trans ures, rpau.trans upau, rtk.trans utk, rtko.trans utko⟩
  · have hgf : gatePasses st (now - st.lastTimeUpdated) = false := by simpa using hgate
    rw [onFrame_skip f lf st host now hgf] at h
    by_cases hrun : st.isRunning
    · rw [if_pos hrun] at h
      simp only [Option.some.injEq] at h
      subst h
      obtain ⟨same, -⟩ := animateOnce_same st host
      obtain ⟨-, -, -, -, -, -, -, -, -, rres, rpau, rtk, rtko⟩ := same
      exact ⟨rres, rpau, rtk, rtko⟩
    · rw [if_neg hrun] at h
      simp only [Option.some.injEq] at h
      subst h
      exact ⟨rfl, rfl, rfl, rfl⟩

/-- A completed frame pump of a ticker whose resume, pause and tick
channels are empty notifies no detached channel. -/
theorem onFrame_c8 (f lf : ℕ) (st : FrameTicker) (host : Host) (now : ℚ)
    (r : FrameTicker × Host × List Ev)
    (ht : st.onTick = []) (hp : st.onPause = [])
    (h : onFrame f lf st host now = some r) :
    ∀ e ∈ r.2.2, badNotify e = false := by
  by_cases hgate : gatePasses st (now - st.lastTimeUpdated) = true
  · cases hmax : st.maxInterval with
    | some m =>
      obtain ⟨stc, hc, hloop, -, -⟩ := onFrame_loopBranch f lf st host now m r hmax hgate h
      exact fun e he => onFrameLoop_c8 lf f st host now _ m (stc, hc, r.2.2) ht hp hloop e he
    | none =>
      obtain ⟨st1, hh1, hup, -, -⟩ := onFrame_simple f lf st host now r hmax hgate h
      exact fun e he => update_c8 f st host _ true (st1, hh1, r.2.2) ht hp hup e he
  · have hgf : gatePasses st (now - st.lastTimeUpdated) = false := by simpa using hgate
    rw [onFrame_skip f lf st host now hgf] at h
    by_cases hrun : st.isRunning
    · rw [if_pos hrun] at h
      simp only [Option.some.injEq] at h
      subst h
      simp
    · rw [if_neg hrun] at h
      simp only [Option.some.injEq] at h
      subst h
      simp

end FrameTicker

namespace FrameTicker

/-- `resume` on an empty resume channel delivers nothing and preserves
all subscriber lists. -/
theorem resume_c8 (f : ℕ) (st : FrameTicker) (host : Host) (now : ℚ)
    (r : FrameTicker × Host × List Ev)
    (hres : st.onResume = []) (h : resume f st host now = some r) :
    r.2.2 = [] ∧ r.1.onResume = st.onResume ∧ r.1.onPause = st.onPause ∧
    r.1.onTick = st.onTick ∧ r.1.onTickOncePerFrame = st.onTickOncePerFrame := by
  simp only [resume] at h
  by_cases hrun : st.isRunning
  · rw [if_pos hrun] at h
    simp only [Option.some.injEq] at h
    subst h
    exact ⟨rfl, rfl, rfl, rfl, rfl⟩
  · rw [if_neg hrun] at h
    cases hdis : dispatchGo f Chan.resume st.onResume
        { st with isRunning := true, lastTimeUpdated := now } host with
    | none => rw [hdis] at h; exact absurd h (by simp)
    | some r2 =>
      obtain ⟨st2, h2, evs⟩ := r2
      have hr2 := dispatchGo_empty hres hdis
      simp only [Prod.mk.injEq] at hr2
      obtain ⟨hst2, hh2, hevs⟩ := hr2
      subst hevs
      rw [hdis] at h
      dsimp only at h
      simp only [Option.some.injEq] at h
      subst h
      obtain ⟨same, -⟩ := animateOnce_same st2 h2
      obtain ⟨-, -, -, -, -, -, -, -, -, rres, rpau, rtk, rtko⟩ := same
      have c1 : st2.onResume = st.onResume := by rw [hst2]
      have c2 : st2.onPause = st.onPause := by rw [hst2]
      have c3 : st2.onTick = st.onTick := by rw [hst2]
      have c4 : st2.onTickOncePerFrame = st.onTickOncePerFrame := by rw [hst2]
      exact ⟨rfl, rres.trans c1, rpau.trans c2, rtk.trans c3, rtko.trans c4⟩

/-- `pause` on an empty pause channel delivers nothing. -/
theorem pause_c8 (f : ℕ) (st : FrameTicker) (host : Host)
    (r : FrameTicker × Host × List Ev)
    (hp : st.onPause = []) (h : pause f st host = some r) : r.2.2 = [] := by
  simp only [pause] at h
  by_cases hrun : st.isRunning
  · rw [if_pos hrun] at h
    cases hdis : dispatchGo f Chan.pauseCh st.onPause { st with isRunning := false } host with
    | none => rw [hdis] at h; exact absurd h (by simp)
    | some r2 =>
      obtain ⟨st2, h2, evs⟩ := r2
      have hr2 := dispatchGo_empty hp hdis
      simp only [Prod.mk.injEq] at hr2
      obtain ⟨-, -, hevs⟩ := hr2
      subst hevs
      rw [hdis] at h
      dsimp only at h
      simp only [Option.some.injEq] at h
      subst h
      rfl
  · rw [if_neg hrun] at h
    dsimp only at h
    simp only [Option.some.injEq] at h
    subst h
    rfl

/-- `dispose` on an empty pause channel delivers nothing. -/
theorem dispose_c8 (f : ℕ) (st : FrameTicker) (host : Host)
    (r : FrameTicker × Host × List Ev)
    (hp : st.onPause = []) (h : dispose f st host = some r) : r.2.2 = [] := by
  simp only [dispose] at h
  cases hpa : pause f st host with
  | none => rw [hpa] at h; exact absurd h (by simp)
  | some rp =>
    obtain ⟨st1, h1, evs⟩ := rp
    rw [hpa] at h
    simp only [Option.some.injEq] at h
    subst h
    exact pause_c8 f st host (st1, h1, evs) hp hpa

/-- `setTimeScale` preserves all subscriber lists. -/
theorem setTimeScale_channels (st : FrameTicker) (v : ℚ) :
    (st.setTimeScale v).onResume = st.onResume ∧
    (st.setTimeScale v).onPause = st.onPause ∧
    (st.setTimeScale v).onTick = st.onTick ∧
    (st.setTimeScale v).onTickOncePerFrame = st.onTickOncePerFrame := by
  unfold setTimeScale
  split
  · exact ⟨rfl, rfl, rfl, rfl⟩
  · exact ⟨rfl, rfl, rfl, rfl⟩

/-- One operation on a ticker whose resume, pause and tick channels are
empty keeps them empty, keeps the once-per-frame subscribers, and
delivers no notification on the three detached channels. -/
theorem step_c8 (f lf : ℕ) (st : FrameTicker) (host : Host) (op : Op)
    (r : FrameTicker × Host × List Ev)
    (hres : st.onResume = []) (hpau : st.onPause = []) (htick : st.onTick = [])
    (h : step f lf st host op = some r) :
    r.1.onResume = [] ∧ r.1.onPause = [] ∧ r.1.onTick = [] ∧
    r.1.onTickOncePerFrame = st.onTickOncePerFrame ∧
    ∀ e ∈ r.2.2, badNotify e = false := by
  cases op with
  | frame t =>
    simp only [step] at h
    obtain ⟨cres, cpau, ctk, ctko⟩ := onFrame_channels f lf st host t r h
    exact ⟨cres.trans hres, cpau.trans hpau, ctk.trans htick, ctko,
      onFrame_c8 f lf st host t r htick hpau h⟩
  | opResume t =>
    simp only [step] at h
    obtain ⟨hevs, cres, cpau, ctk, ctko⟩ := resume_c8 f st host t r hres h
    exact ⟨cres.trans hres, cpau.trans hpau, ctk.trans htick, ctko,
      by rw [hevs]; simp⟩
  | opPause =>
    simp only [step] at h
    obtain ⟨hcore, -, -, -⟩ := pause_facts f st host r h
    obtain ⟨-, -, -, -, -, -, -, -, -, cres, cpau, ctk, ctko⟩ := hcore
    have hevs := pause_c8 f st host r hpau h
    exact ⟨cres.trans hres, cpau.trans hpau, ctk.trans htick, ctko,
      by rw [hevs]; simp⟩
  | opDispose =>
    simp only [step] at h
    obtain ⟨-, -, cres, cpau, ctk, ctko, -⟩ := dispose_facts f st host r h
    have hevs := dispose_c8 f st host r hpau h
    exact ⟨cres, cpau, ctk, ctko, by rw [hevs]; simp⟩
  | opSetTimeScale v =>
    simp only [step, Option.some.injEq] at h
    subst h
    obtain ⟨cres, cpau, ctk, ctko⟩ := setTimeScale_channels st v
    exact ⟨cres.trans hres, cpau.trans hpau, ctk.trans htick, ctko, by simp⟩
  | opUpdateOnce =>
    simp only [step, updateOnce, Option.some.injEq] at h
    subst h
    exact ⟨hres, hpau, htick, rfl, by simp⟩

/-- A whole operation schedule on such a ticker delivers no
notification on the three detached channels. -/
theorem runOps_c8 : ∀ (ops : List Op) (f lf : ℕ) (st : FrameTicker) (host : Host)
    (r : FrameTicker × Host × List Ev),
    st.onResume = [] → st.onPause = [] → st.onTick = [] →
    runOps f lf st host ops = some r →
    ∀ e ∈ r.2.2, badNotify e = false := by
  intro ops
  induction ops with
  | nil =>
    intro f lf st host r _ _ _ h
    simp only [runOps, Option.some.injEq] at h
    subst h
    simp
  | cons op rest ih =>
    intro f lf st host r hres hpau htick h
    simp only [runOps] at h
    cases hstep : step f lf st host op with
    | none => rw [hstep] at h; exact absurd h (by simp)
    | some r1 =>
      obtain ⟨st1, h1, evs1⟩ := r1
      rw [hstep] at h
      dsimp only at h
      cases hrest : runOps f lf st1 h1 rest with
      | none => rw [hrest] at h; exact absurd h (by simp)
      | some r2 =>
        obtain ⟨st2, h2, evs2⟩ := r2
        rw [hrest] at h
        simp only [Option.some.injEq] at h
        subst h
        obtain ⟨sres, spau, stick, -, sgood⟩ :=
          step_c8 f lf st host op (st1, h1, evs1) hres hpau htick hstep
        simp only at sres spau stick
        have hgood2 := ih f lf st1 h1 (st2, h2, evs2) sres spau stick hrest
        intro e he
        simp only [List.mem_append] at he
        rcases he with he | he
        · exact sgood e he
        · exact hgood2 e he

end FrameTicker

/-- C8: after `dispose()` returns, the once-per-frame channel retains
its subscribers, while the resume, pause and tick channels are empty
and no subsequently completed operation schedule — stale frame
callbacks, resumes, pauses, further disposals, time-scale writes or
manual samplings — ever delivers a notification on those three
channels again. -/
theorem c8_theorem (f : ℕ) (st : FrameTicker) (host : Host)
    (rd : FrameTicker × Host × List Ev)
    (hd : dispose f st host = some rd) :
    rd.1.onTickOncePerFrame = st.onTickOncePerFrame ∧
    rd.1.onResume = [] ∧ rd.1.onPause = [] ∧ rd.1.onTick = [] ∧
    ∀ (ops : List Op) (f2 lf2 : ℕ) (r2 : FrameTicker × Host × List Ev),
      runOps f2 lf2 rd.1 rd.2.1 ops = some r2 →
      ∀ e ∈ r2.2.2, badNotify e = false := by
  obtain ⟨-, -, dres, dpau, dtick, dtko, -⟩ := dispose_facts f st host rd hd
  exact ⟨dtko, dres, dpau, dtick,
    fun ops f2 lf2 r2 hrun => runOps_c8 ops f2 lf2 rd.1 rd.2.1 r2 dres dpau dtick hrun⟩

/-- The post-dispose schedule of the C8 witness: a stale frame
callback, a resume, and another frame. -/
def opsC8 : List Op := [Op.frame 10, Op.opResume 20, Op.frame 30]

/-- The disposed state of the C8 witness (subscribers on all four
channels before disposal). -/
def rC8d : FrameTicker × Host × List Ev :=
  (dispose 3 stC10 { nextHandle := 2, pending := [1] }).getD (stBase, host0, [])

/-- The result of running the C8 witness schedule after disposal. -/
def rC8r : FrameTicker × Host × List Ev :=
  (runOps 3 5 rC8d.1 rC8d.2.1 opsC8).getD (stBase, host0, [])

unseal Rat.add Rat.sub Rat.mul Rat.inv in
/-- Witness for C8: disposing a fully subscribed ticker and then firing
a stale frame, resuming, and pumping again delivers no notification on
the resume, pause or tick channels, while the once-per-frame
subscribers are retained. -/
theorem c8_witness :
    dispose 3 stC10 { nextHandle := 2, pending := [1] } = some rC8d ∧
    rC8d.1.onTickOncePerFrame = stC10.onTickOncePerFrame ∧
    runOps 3 5 rC8d.1 rC8d.2.1 opsC8 = some rC8r ∧
    (∀ e ∈ rC8r.2.2, badNotify e = false) :=
  ⟨by decide,
   (c8_theorem 3 stC10 { nextHandle := 2, pending := [1] } rC8d (by decide)).1,
   by decide,
   (c8_theorem 3 stC10 { nextHandle := 2, pending := [1] } rC8d (by decide)).2.2.2.2
     opsC8 3 5 rC8r (by decide)⟩
